import Mathlib

/-!
Shallow embedding of the Click `IPRewriter` element
(src/elements/ip/iprewriter.cc): flow identifiers, `Mapping` construction
with its precomputed one's-complement checksum increments, the header
rewrite `apply`, `Pattern::find_sport`, the SPORT token handling of
`Pattern::parse`, the per-protocol flow tables with `install`, and the
garbage collector `clean_map`.  Pointers are replaced by arena indices
(`Nat`), the two hash tables by association lists whose `insert` replaces
in place, and 16-bit machine words by `Nat` with explicit `% 65536` where
the source truncates.  Claims C1..C10 are settled as theorems after the
definitions.
-/

namespace IPRewriter

/-- One's-complement end-around-carry fold: the source loop
`while (x >> 16) x = (x & 0xFFFF) + (x >> 16)`.  The recursion is
fuel-indexed so that it computes by kernel reduction; fuel `x` is enough
because every iteration shrinks the value by at least 65535. -/
def fold16Aux : Nat → Nat → Nat
  | 0, x => x
  | fuel + 1, x => if x < 65536 then x else fold16Aux fuel (x % 65536 + x / 65536)

/-- The fold entered with its own value as fuel. -/
def fold16 (x : Nat) : Nat := fold16Aux x x

/-- `~w & 0xFFFF` on a 16-bit word. -/
def compl16 (w : Nat) : Nat := 65535 - w

/-- A proposition over the payload of an `Option`, trivially true on `none`;
used to keep the well-formedness predicates decidable. -/
def optProp (P : Nat → Prop) : Option Nat → Prop
  | none => True
  | some x => P x

instance (P : Nat → Prop) [DecidablePred P] : (o : Option Nat) → Decidable (optProp P o)
  | none => Decidable.isTrue trivial
  | some x => inferInstanceAs (Decidable (P x))

/-- IPv4 address as its two 16-bit network-order words. -/
structure IPAddress where
  hi : Nat
  lo : Nat
deriving DecidableEq

/-- `operator bool` on an address: nonzero; zero (0.0.0.0) is the wildcard. -/
def IPAddress.isZero (a : IPAddress) : Bool := a.hi == 0 && a.lo == 0

/-- The 5-tuple key (protocol kept outside the key, as in the source's two
separate maps).  Field order follows the memory layout the `Mapping`
constructor walks: 16-bit words 0-3 are source then destination address,
words 4-5 are source then destination port. -/
structure IPFlowID where
  saddr : IPAddress
  daddr : IPAddress
  sport : Nat
  dport : Nat
deriving DecidableEq

/-- `IPFlowID::rev()`: swap source and destination. -/
def IPFlowID.rev (f : IPFlowID) : IPFlowID :=
  { saddr := f.daddr, daddr := f.saddr, sport := f.dport, dport := f.sport }

/-- All six 16-bit words of the tuple are in range. -/
def IPFlowID.WF (f : IPFlowID) : Prop :=
  f.saddr.hi ≤ 65535 ∧ f.saddr.lo ≤ 65535 ∧ f.daddr.hi ≤ 65535 ∧
  f.daddr.lo ≤ 65535 ∧ f.sport ≤ 65535 ∧ f.dport ≤ 65535

instance (f : IPFlowID) : Decidable f.WF := by
  unfold IPFlowID.WF; infer_instance

/-- The IP-header checksum increment precomputed by `Mapping::Mapping`:
over the four address words, accumulate `~word` for the inbound tuple and
`+word` for the outbound one, then fold. -/
def ip_csum_increment (inf outf : IPFlowID) : Nat :=
  fold16 (compl16 inf.saddr.hi + outf.saddr.hi + compl16 inf.saddr.lo + outf.saddr.lo +
          compl16 inf.daddr.hi + outf.daddr.hi + compl16 inf.daddr.lo + outf.daddr.lo)

/-- The transport checksum increment: continue from the folded IP increment
over the two port words, then fold again. -/
def udp_csum_increment (inf outf : IPFlowID) : Nat :=
  fold16 (ip_csum_increment inf outf +
          compl16 inf.sport + outf.sport + compl16 inf.dport + outf.dport)

/-- One direction of a translated flow.  `reverse` is the paired mapping's
arena index and `pat` the owning pattern's index (`none` for mapper-made
mappings); the source's pointers become these indices. -/
structure Mapping where
  mapto : IPFlowID
  out : Nat
  used : Bool
  is_reverse : Bool
  reverse : Nat
  pat : Option Nat
  ip_csum_incr : Nat
  udp_csum_incr : Nat
deriving DecidableEq

/-- `Mapping::Mapping(in, out, pat, output, is_reverse)`: stores `mapto`,
starts `_used` false, and precomputes both checksum increments. -/
def Mapping.ofFlows (inf outf : IPFlowID) (pat : Option Nat) (output : Nat)
    (isRev : Bool) (revIdx : Nat) : Mapping :=
  { mapto := outf, out := output, used := false, is_reverse := isRev,
    reverse := revIdx, pat := pat,
    ip_csum_incr := ip_csum_increment inf outf,
    udp_csum_incr := udp_csum_increment inf outf }

/-- `Mapping::make_pair(inf, outf, pattern, foutput, routput)`: the forward
mapping rewrites to `outf`; the reverse one is built from
`(outf.rev(), inf.rev())` so a returning packet is rewritten back; their
`reverse` indices point at each other. -/
def make_pair (inf outf : IPFlowID) (pat : Option Nat) (foutput routput : Nat)
    (fi ri : Nat) : Mapping × Mapping :=
  (Mapping.ofFlows inf outf pat foutput false ri,
   Mapping.ofFlows outf.rev inf.rev pat routput true fi)

/-- IPv4 header abstracted to what the checksum arithmetic sees: the 16-bit
words other than addresses and checksum, the two addresses, and the stored
checksum field. -/
structure IPHeader where
  other : List Nat
  src : IPAddress
  dst : IPAddress
  sum : Nat
deriving DecidableEq

/-- Sum of every header word with the checksum field taken as zero. -/
def IPHeader.wordSum (h : IPHeader) : Nat :=
  h.other.foldr (· + ·) 0 + h.src.hi + h.src.lo + h.dst.hi + h.dst.lo

/-- Full from-scratch header checksum: one's complement of the folded
one's-complement sum. -/
def ipCksumOf (h : IPHeader) : Nat := 65535 - fold16 h.wordSum

/-- The IP-header part of `Mapping::apply`: overwrite the addresses with
`mapto`'s and store `~fold((~ip_sum & 0xFFFF) + _ip_csum_incr)`. -/
def Mapping.apply_ip (m : Mapping) (h : IPHeader) : IPHeader :=
  { other := h.other, src := m.mapto.saddr, dst := m.mapto.daddr,
    sum := 65535 - fold16 (compl16 h.sum + m.ip_csum_incr) }

/-- UDP header abstracted to the fields `apply` touches. -/
structure UDPHeader where
  sport : Nat
  dport : Nat
  sum : Nat
deriving DecidableEq

/-- The UDP part of `Mapping::apply`: overwrite both ports; a zero stored
checksum is the no-checksum sentinel and is left alone, otherwise the
checksum is updated by the transport increment. -/
def Mapping.apply_udp (m : Mapping) (u : UDPHeader) : UDPHeader :=
  { sport := m.mapto.sport, dport := m.mapto.dport,
    sum := if u.sum ≠ 0 then 65535 - fold16 (compl16 u.sum + m.udp_csum_incr) else u.sum }

/-- Consecutive pairs of a circular list: `(x0,x1), (x1,x2), …,
(xlast, first)`; the second argument carries the first element for the
final wrap-around pair. -/
def adjPairs : List Nat → Nat → List (Nat × Nat)
  | [], _ => []
  | [x], f => [(x, f)]
  | x :: y :: rest, f => (x, y) :: adjPairs (y :: rest) f

/-- All circular-adjacency pairs of a list read as a circular list. -/
def circPairs : List Nat → List (Nat × Nat)
  | [] => []
  | x :: xs => adjPairs (x :: xs) x

/-- The do-while search of `Pattern::find_sport`, walking the circular
pairs `(this_sport, next_sport)` starting at the rover.  Returns 0 when the
walk completes a full circle without finding a gap.  The `% 65536` mirrors
the truncation to `unsigned short` through `htons`. -/
def fsLoop (sportl sporth : Nat) : List (Nat × Nat) → Nat
  | [] => 0
  | (p, pn) :: rest =>
    if p + 1 < pn then (p + 1) % 65536
    else if pn ≤ p then
      if p < sporth then (p + 1) % 65536
      else if sportl < pn then sportl % 65536
      else fsLoop sportl sporth rest
    else fsLoop sportl sporth rest

/-- `Pattern::find_sport`, with the pattern's circular list of live forward
mappings flattened to the list of their (host-order) source ports starting
at `_rover`; the empty list is the `!_rover` case. -/
def find_sport (sportl sporth : Nat) (ss : List Nat) : Nat :=
  if sportl = sporth ∨ ss = [] then sportl % 65536
  else fsLoop sportl sporth (circPairs ss)

/-- The gap property of one circular-adjacency pair of a circularly sorted
list: an ascending pair has no list element strictly between its
components, and a wrapping pair bounds every element of the list. -/
def PairProp (ss : List Nat) (pr : Nat × Nat) : Prop :=
  (pr.1 < pr.2 → ∀ z ∈ ss, ¬(pr.1 < z ∧ z < pr.2)) ∧
  (pr.2 ≤ pr.1 → ∀ z ∈ ss, pr.2 ≤ z ∧ z ≤ pr.1)

/-- Modelled from the spec: the lexical shape of the SPORT token after
`cp_integer` (confparse, outside src/).  `intTok n` is a token that is
entirely an optionally-signed decimal integer, `rangeTok lo hi` is `LO-HI`
where the leading integer parses to `lo` and the remainder `-HI` parses to
the integer `-hi` (so `hi`, coming from a digit string, is a `Nat`),
`malformed` is any token `cp_integer` rejects. -/
inductive SportTok where
  | dash
  | intTok (n : Int)
  | rangeTok (lo : Int) (hi : Nat)
  | malformed
deriving DecidableEq

/-- The final range check of `Pattern::parse` on the source ports:
`sportl > sporth || sportl < 0 || sporth > USHRT_MAX` is an error. -/
def checkSportRange (sportl sporth : Int) : Except String (Int × Int) :=
  if sportl > sporth ∨ sportl < 0 ∨ sporth > 65535 then
    Except.error "source ports out of range in pattern spec"
  else Except.ok (sportl, sporth)

/-- The SPORT-token logic of `Pattern::parse` (iprewriter.cc lines
173-187): `-` means the wildcard pair (0,0); a single integer gives
`sportl = sporth = n`; for `LO-HI` the tail parses to `-hi`, which must not
be positive, and is then negated into `sporth`; every path then runs the
range check. -/
def parse_sport : SportTok → Except String (Int × Int)
  | SportTok.dash => checkSportRange 0 0
  | SportTok.malformed => Except.error "bad source port in pattern spec"
  | SportTok.intTok n => checkSportRange n n
  | SportTok.rangeTok lo hi =>
    if 0 < -(hi : Int) then Except.error "bad source port in pattern spec"
    else checkSportRange lo hi

/-- A per-protocol flow table: association list from flow keys to nullable
mapping indices, standing for `HashMap<IPFlowID, Mapping *>`.  A stored
`none` is a tombstone (an explicitly inserted null pointer). -/
abbrev Table := List (IPFlowID × Option Nat)

/-- `HashMap::insert`: replace in place when the key is present, append
otherwise. -/
def tinsert : Table → IPFlowID → Option Nat → Table
  | [], k, v => [(k, v)]
  | (k', v') :: rest, k, v =>
    if k' = k then (k, v) :: rest else (k', v') :: tinsert rest k v

/-- `HashMap::find`: the stored pointer, or the default null pointer when
the key is absent — so a tombstone and a missing key are both `none`. -/
def tfind : Table → IPFlowID → Option Nat
  | [], _ => none
  | (k', v') :: rest, k => if k' = k then v' else tfind rest k

/-- The rewriter state the claims need: the two per-protocol tables and the
arena of mappings that stands for the heap. -/
structure RW where
  tcp : Table
  udp : Table
  arena : Nat → Mapping

/-- The two inserts of `IPRewriter::install` on one table. -/
def install_tab (h : Table) (fk rk : IPFlowID) (fi ri : Nat) : Table :=
  tinsert (tinsert h fk (some fi)) rk (some ri)

/-- `IPRewriter::install(is_tcp, forward, reverse)`: the forward mapping is
keyed by `reverse->flow_id().rev()` and the reverse one by
`forward->flow_id().rev()`, in the TCP map when `is_tcp` and in the UDP map
otherwise. -/
def install (is_tcp : Bool) (fwdIdx revIdx : Nat) (rw : RW) : RW :=
  let fk := (rw.arena revIdx).mapto.rev
  let rk := (rw.arena fwdIdx).mapto.rev
  if is_tcp then { rw with tcp := install_tab rw.tcp fk rk fwdIdx revIdx }
  else { rw with udp := install_tab rw.udp fk rk fwdIdx revIdx }

/-- Allocate a fresh pair at arena indices `fi`, `ri` with `make_pair` and
`install` it — the success path of `push`'s `INPUT_SPEC_PATTERN` branch
after `create_mapping`. -/
def installPair (is_tcp : Bool) (inf outf : IPFlowID) (pat : Option Nat)
    (fo ro fi ri : Nat) (rw : RW) : RW :=
  let pr := make_pair inf outf pat fo ro fi ri
  install is_tcp fi ri
    { rw with arena := fun j => if j = ri then pr.2 else if j = fi then pr.1 else rw.arena j }

/-- `Mapping::clear_used()` at arena index `i`. -/
def clearUsed (a : Nat → Mapping) (i : Nat) : Nat → Mapping :=
  fun j => if j = i then { a i with used := false } else a j

/-- Pass 1 of `IPRewriter::clean_map`: walk the entries; a live forward
mapping whose own and partner `used` flags are both clear is pushed onto
`to_free`, every other live mapping has its `used` flag cleared. -/
def pass1 (a : Nat → Mapping) : Table → ((Nat → Mapping) × List Nat)
  | [] => (a, [])
  | (_, none) :: rest => pass1 a rest
  | (_, some i) :: rest =>
    if !(a i).used && !(a (a i).reverse).used && !(a i).is_reverse then
      ((pass1 a rest).1, i :: (pass1 a rest).2)
    else pass1 (clearUsed a i) rest

/-- `Pattern::mapping_freed(m)` on the pattern's circular list flattened
from `_rover`: when the rover is the freed mapping it advances to
`pat_next` (the new head), becoming null when the list empties; then the
mapping is unlinked. -/
def mapping_freed (l : List Nat) (m : Nat) : List Nat :=
  match l with
  | [] => []
  | r :: rest => if m = r then rest else r :: rest.erase m

/-- Result of a garbage-collection pass: the arena, the per-pattern rover
lists, the table, and the arena indices whose mappings were `delete`d. -/
structure GCOut where
  arena : Nat → Mapping
  pats : Nat → List Nat
  table : Table
  freed : List Nat

/-- The `pattern->mapping_freed(m)` step of pass 2: update the freed
mapping's pattern list when it has a pattern. -/
def freedPats (a : Nat → Mapping) (pats : Nat → List Nat) (i : Nat) : Nat → List Nat :=
  match (a i).pat with
  | some p => fun q => if q = p then mapping_freed (pats p) i else pats q
  | none => pats

/-- The two tombstoning inserts of pass 2: explicit null under
`m->reverse()->flow_id().rev()` and under `m->flow_id().rev()`. -/
def tombstone2 (a : Nat → Mapping) (h : Table) (i : Nat) : Table :=
  tinsert (tinsert h ((a (a i).reverse).mapto.rev) none) ((a i).mapto.rev) none

/-- Pass 2 of `IPRewriter::clean_map`: for each scheduled forward mapping,
unlink it from its pattern's list when it has one, insert explicit null
under both of the pair's keys, and delete the reverse and the forward. -/
def pass2 (a : Nat → Mapping) (pats : Nat → List Nat) (h : Table) :
    List Nat → GCOut
  | [] => ⟨a, pats, h, []⟩
  | i :: rest =>
    ⟨(pass2 a (freedPats a pats i) (tombstone2 a h i) rest).arena,
     (pass2 a (freedPats a pats i) (tombstone2 a h i) rest).pats,
     (pass2 a (freedPats a pats i) (tombstone2 a h i) rest).table,
     (a i).reverse :: i :: (pass2 a (freedPats a pats i) (tombstone2 a h i) rest).freed⟩

/-- `IPRewriter::clean_map` on one protocol table: pass 1 then pass 2. -/
def clean_map (a : Nat → Mapping) (pats : Nat → List Nat) (h : Table) : GCOut :=
  let r := pass1 a h
  pass2 r.1 pats h r.2

/-- The keys pass 2 tombstones for a given `to_free` list. -/
def tombKeys (a : Nat → Mapping) (tf : List Nat) : List IPFlowID :=
  (tf.map (fun i => [(a (a i).reverse).mapto.rev, (a i).mapto.rev])).flatten

/-- Well-formedness of one live table entry `(k, some i)`: the pair links
are mutual, exactly one side is the reverse, the key is the install key
`reverse->flow_id().rev()`, the partner is installed under its own key, and
the owning pattern's rover list has no duplicates. -/
def entryOK (a : Nat → Mapping) (pats : Nat → List Nat) (t : Table)
    (e : IPFlowID × Option Nat) : Prop :=
  optProp (fun i =>
    (a (a i).reverse).reverse = i ∧
    (a (a i).reverse).is_reverse = !(a i).is_reverse ∧
    e.1 = (a (a i).reverse).mapto.rev ∧
    ((a i).mapto.rev, some (a i).reverse) ∈ t ∧
    optProp (fun p => (pats p).Nodup) (a i).pat) e.2

instance (a : Nat → Mapping) (pats : Nat → List Nat) (t : Table)
    (e : IPFlowID × Option Nat) : Decidable (entryOK a pats t e) := by
  unfold entryOK; infer_instance

/-- Well-formedness of a flow-table state: keys are distinct and every
live entry satisfies `entryOK` — the linked-pair invariant the spec states
for the flow table. -/
def WF (a : Nat → Mapping) (pats : Nat → List Nat) (t : Table) : Prop :=
  (t.map Prod.fst).Nodup ∧ ∀ e ∈ t, entryOK a pats t e

instance (a : Nat → Mapping) (pats : Nat → List Nat) (t : Table) :
    Decidable (WF a pats t) := by
  unfold WF; infer_instance

/-- No later live forward entry names `i` as its partner. -/
def noFwdPtr (a : Nat → Mapping) (i : Nat) : Option Nat → Prop
  | none => True
  | some j => (a j).is_reverse = true ∨ (a j).reverse ≠ i

instance (a : Nat → Mapping) (i : Nat) : (o : Option Nat) → Decidable (noFwdPtr a i o)
  | none => Decidable.isTrue trivial
  | some _ => inferInstanceAs (Decidable (_ ∨ _))

/-- Install order in the table: a reverse mapping's entry never precedes
its forward partner's entry — `install` inserts the forward first. -/
def ForwardFirst (a : Nat → Mapping) : Table → Prop
  | [] => True
  | (_, none) :: rest => ForwardFirst a rest
  | (_, some i) :: rest =>
    ((a i).is_reverse = true → ∀ e ∈ rest, noFwdPtr a i e.2) ∧ ForwardFirst a rest

instance instDecForwardFirst (a : Nat → Mapping) :
    (t : Table) → Decidable (ForwardFirst a t)
  | [] => Decidable.isTrue trivial
  | (_, none) :: rest => instDecForwardFirst a rest
  | (_, some _) :: rest =>
    have : Decidable (ForwardFirst a rest) := instDecForwardFirst a rest
    inferInstanceAs (Decidable (_ ∧ _))

/-! ### Arithmetic facts about the end-around-carry fold -/

theorem fold16Aux_lt (fuel : Nat) : ∀ x : Nat, x ≤ 65535 + fuel * 65535 → fold16Aux fuel x < 65536 := by
  induction fuel with
  | zero => intro x hx; simp only [fold16Aux]; omega
  | succ n ih =>
    intro x hx
    simp only [fold16Aux]
    split
    · assumption
    · apply ih
      have h := Nat.div_add_mod x 65536
      have h2 : 1 ≤ x / 65536 := by omega
      omega

theorem fold16_lt (x : Nat) : fold16 x < 65536 := by
  apply fold16Aux_lt
  have : x * 1 ≤ x * 65535 := Nat.mul_le_mul_left x (by omega)
  omega

theorem fold16Aux_modeq (fuel : Nat) : ∀ x : Nat, fold16Aux fuel x % 65535 = x % 65535 := by
  induction fuel with
  | zero => intro x; rfl
  | succ n ih =>
    intro x
    simp only [fold16Aux]
    split
    · rfl
    · rw [ih]
      have h := Nat.div_add_mod x 65536
      omega

theorem fold16_modeq (x : Nat) : fold16 x % 65535 = x % 65535 :=
  fold16Aux_modeq x x

theorem fold16Aux_ne_zero (fuel : Nat) : ∀ x : Nat, x ≠ 0 → fold16Aux fuel x ≠ 0 := by
  induction fuel with
  | zero => intro x hx; simpa [fold16Aux] using hx
  | succ n ih =>
    intro x hx
    simp only [fold16Aux]
    split
    · exact hx
    · apply ih
      have h := Nat.div_add_mod x 65536
      omega

theorem fold16_ne_zero (x : Nat) (hx : x ≠ 0) : fold16 x ≠ 0 :=
  fold16Aux_ne_zero x x hx

/-- Two nonzero values that agree modulo 65535 have equal folds: the fold
lands in `[1, 65535]`, where residues modulo 65535 are distinct. -/
theorem fold16_eq_of_modeq (a b : Nat) (ha : a ≠ 0) (hb : b ≠ 0)
    (h : a % 65535 = b % 65535) : fold16 a = fold16 b := by
  have la := fold16_lt a
  have lb := fold16_lt b
  have na := fold16_ne_zero a ha
  have nb := fold16_ne_zero b hb
  have ma := fold16_modeq a
  have mb := fold16_modeq b
  omega

theorem IPFlowID.rev_rev (f : IPFlowID) : f.rev.rev = f := rfl

/-- The folded old sum plus the folded increment is congruent, modulo
65535, to the sum over the rewritten words: each `~a + b` contributes
`65535 - a + b`. -/
theorem incr_modeq (S a1 a2 a3 a4 b1 b2 b3 b4 : Nat)
    (ha1 : a1 ≤ 65535) (ha2 : a2 ≤ 65535) (ha3 : a3 ≤ 65535) (ha4 : a4 ≤ 65535) :
    (fold16 (S + (a1 + a2 + a3 + a4)) +
      fold16 (65535 - a1 + b1 + (65535 - a2) + b2 + (65535 - a3) + b3 + (65535 - a4) + b4)) % 65535
      = (S + (b1 + b2 + b3 + b4)) % 65535 := by
  have m1 := fold16_modeq (S + (a1 + a2 + a3 + a4))
  have m2 := fold16_modeq
    (65535 - a1 + b1 + (65535 - a2) + b2 + (65535 - a3) + b3 + (65535 - a4) + b4)
  omega

/-! ### Claim C1: incremental IP checksum equals full recomputation -/

/-- Claim C1: for a `Mapping` built from inbound and outbound flow IDs,
applying it to a packet whose addresses match the inbound flow and whose
IP checksum was correct stores exactly the checksum that a full
from-scratch recomputation over the rewritten header produces.  The
hypotheses are `apply`'s documented preconditions: a validated IPv4 header
(some word outside the addresses and checksum is nonzero — true of any
real header, whose first word carries version and IHL) and 16-bit inbound
words. -/
theorem mapping_apply_ip_checksum (inf outf : IPFlowID) (pat : Option Nat)
    (output : Nat) (isRev : Bool) (revIdx : Nat) (hd : IPHeader)
    (hin : inf.WF)
    (hsrc : hd.src = inf.saddr) (hdst : hd.dst = inf.daddr)
    (hvalid : hd.other.foldr (· + ·) 0 ≠ 0)
    (hsum : hd.sum = ipCksumOf hd) :
    ((Mapping.ofFlows inf outf pat output isRev revIdx).apply_ip hd).sum
      = ipCksumOf ((Mapping.ofFlows inf outf pat output isRev revIdx).apply_ip hd) := by
  obtain ⟨h1, h2, h3, h4, h5, h6⟩ := hin
  have hwsum : hd.wordSum
      = hd.other.foldr (· + ·) 0
        + (inf.saddr.hi + inf.saddr.lo + inf.daddr.hi + inf.daddr.lo) := by
    simp only [IPHeader.wordSum, hsrc, hdst]; ring
  have hwsum' : ((Mapping.ofFlows inf outf pat output isRev revIdx).apply_ip hd).wordSum
      = hd.other.foldr (· + ·) 0
        + (outf.saddr.hi + outf.saddr.lo + outf.daddr.hi + outf.daddr.lo) := by
    simp only [IPHeader.wordSum, Mapping.apply_ip, Mapping.ofFlows]; ring
  have hA0 : hd.wordSum ≠ 0 := by rw [hwsum]; intro h; omega
  have hB0 : ((Mapping.ofFlows inf outf pat output isRev revIdx).apply_ip hd).wordSum ≠ 0 := by
    rw [hwsum']; intro h; omega
  have hfA := fold16_lt hd.wordSum
  have hfA0 := fold16_ne_zero hd.wordSum hA0
  have hcompl : compl16 hd.sum = fold16 hd.wordSum := by
    rw [hsum]; simp only [ipCksumOf, compl16]; omega
  show 65535 - fold16 (compl16 hd.sum + (Mapping.ofFlows inf outf pat output isRev revIdx).ip_csum_incr)
      = 65535 - fold16 ((Mapping.ofFlows inf outf pat output isRev revIdx).apply_ip hd).wordSum
  rw [hcompl]
  have hfold : fold16 (fold16 hd.wordSum + (Mapping.ofFlows inf outf pat output isRev revIdx).ip_csum_incr)
      = fold16 ((Mapping.ofFlows inf outf pat output isRev revIdx).apply_ip hd).wordSum := by
    apply fold16_eq_of_modeq
    · intro h; omega
    · exact hB0
    · show (fold16 hd.wordSum + ip_csum_increment inf outf) % 65535 = _ % 65535
      rw [hwsum, hwsum']
      simp only [ip_csum_increment, compl16]
      exact incr_modeq _ _ _ _ _ _ _ _ _ h1 h2 h3 h4
  rw [hfold]

/-! ### Claim C4: UDP port rewrite and checksum update -/

/-- Claim C4 counterexample: with the identity mapping (a fully wildcarded
pattern maps a flow to itself) the transport increment folds to 0xFFFF, and
a UDP packet whose stored checksum is 0xFFFF — a legal on-wire value — is
rewritten to checksum 0: `apply` does convert a nonzero UDP checksum to
zero. -/
theorem apply_udp_nonzero_to_zero_cex :
    (⟨10, 20, 65535⟩ : UDPHeader).sum ≠ 0 ∧
    ((Mapping.ofFlows ⟨⟨1, 2⟩, ⟨4, 5⟩, 3, 6⟩ ⟨⟨1, 2⟩, ⟨4, 5⟩, 3, 6⟩ none 0 false 0).apply_udp
        ⟨10, 20, 65535⟩).sum = 0 := by
  constructor
  · decide
  · decide

/-- Claim C4 (amended): `apply` on a UDP packet overwrites both ports,
updates a nonzero stored checksum by the transport increment, and leaves a
zero checksum zero (so it never turns zero into nonzero); but a nonzero
checksum becomes zero exactly when the folded update equals 0xFFFF, so
"never converts a nonzero checksum to zero" does not hold. -/
theorem apply_udp_spec (m : Mapping) (u : UDPHeader) :
    (m.apply_udp u).sport = m.mapto.sport ∧
    (m.apply_udp u).dport = m.mapto.dport ∧
    (u.sum = 0 → (m.apply_udp u).sum = 0) ∧
    (u.sum ≠ 0 → (m.apply_udp u).sum = 65535 - fold16 (compl16 u.sum + m.udp_csum_incr)) ∧
    (u.sum ≠ 0 →
      ((m.apply_udp u).sum = 0 ↔ fold16 (compl16 u.sum + m.udp_csum_incr) = 65535)) := by
  refine ⟨rfl, rfl, ?_, ?_, ?_⟩
  · intro h; simp [Mapping.apply_udp, h]
  · intro h; simp [Mapping.apply_udp, h]
  · intro h
    have hlt := fold16_lt (compl16 u.sum + m.udp_csum_incr)
    simp only [Mapping.apply_udp, if_pos h]
    omega

/-- Witness for the amended C4 theorem at concrete inputs: a zero checksum
stays zero and both ports are overwritten. -/
theorem apply_udp_spec_witness :
    ((⟨⟨1, 2⟩, ⟨4, 5⟩, 3, 6⟩ : IPFlowID) : IPFlowID).sport = 3 ∧
    ((Mapping.ofFlows ⟨⟨1, 2⟩, ⟨4, 5⟩, 3, 6⟩ ⟨⟨7, 8⟩, ⟨9, 10⟩, 11, 12⟩ none 0 false 0).apply_udp
        ⟨100, 200, 0⟩).sum = 0 :=
  ⟨rfl,
   (apply_udp_spec
      (Mapping.ofFlows ⟨⟨1, 2⟩, ⟨4, 5⟩, 3, 6⟩ ⟨⟨7, 8⟩, ⟨9, 10⟩, 11, 12⟩ none 0 false 0)
      ⟨100, 200, 0⟩).2.2.1 rfl⟩

/-- Witness for C1 at a concrete header and flow pair. -/
theorem mapping_apply_ip_checksum_witness :
    (⟨⟨1, 2⟩, ⟨4, 5⟩, 3, 6⟩ : IPFlowID).WF ∧
    ((Mapping.ofFlows ⟨⟨1, 2⟩, ⟨4, 5⟩, 3, 6⟩ ⟨⟨7, 8⟩, ⟨9, 10⟩, 11, 12⟩ none 0 false 0).apply_ip
        ⟨[17664], ⟨1, 2⟩, ⟨4, 5⟩, 47859⟩).sum
      = ipCksumOf ((Mapping.ofFlows ⟨⟨1, 2⟩, ⟨4, 5⟩, 3, 6⟩ ⟨⟨7, 8⟩, ⟨9, 10⟩, 11, 12⟩ none 0 false 0).apply_ip
        ⟨[17664], ⟨1, 2⟩, ⟨4, 5⟩, 47859⟩) :=
  ⟨by decide,
   mapping_apply_ip_checksum ⟨⟨1, 2⟩, ⟨4, 5⟩, 3, 6⟩ ⟨⟨7, 8⟩, ⟨9, 10⟩, 11, 12⟩ none 0 false 0
     ⟨[17664], ⟨1, 2⟩, ⟨4, 5⟩, 47859⟩ (by decide) rfl rfl (by decide) (by decide)⟩


/-! ### Claim C2: find_sport range and non-collision -/

theorem fsLoop_range (sportl sporth : Nat) (hls : sportl ≤ sporth) (hhi : sporth ≤ 65535) :
    ∀ prs : List (Nat × Nat),
      (∀ pr ∈ prs, sportl ≤ pr.1 ∧ pr.1 ≤ sporth ∧ sportl ≤ pr.2 ∧ pr.2 ≤ sporth) →
      fsLoop sportl sporth prs ≠ 0 →
      sportl ≤ fsLoop sportl sporth prs ∧ fsLoop sportl sporth prs ≤ sporth := by
  intro prs
  induction prs with
  | nil => intro _ hne; simp [fsLoop] at hne
  | cons pr rest ih =>
    intro hb hne
    obtain ⟨p, pn⟩ := pr
    have hbh := hb (p, pn) (List.mem_cons_self _ _)
    simp only at hbh
    have htl := fun q hq => hb q (List.mem_cons_of_mem _ hq)
    simp only [fsLoop] at hne ⊢
    split_ifs at hne ⊢ with h1 h2 h3 h4
    · omega
    · omega
    · omega
    · exact ih htl hne
    · exact ih htl hne

theorem fsLoop_nocollide (sportl sporth : Nat) (ss : List Nat) (hhi : sporth ≤ 65535) :
    ∀ prs : List (Nat × Nat),
      (∀ pr ∈ prs, PairProp ss pr ∧ pr.1 ≤ sporth ∧ pr.2 ≤ sporth) →
      fsLoop sportl sporth prs ≠ 0 →
      fsLoop sportl sporth prs ∉ ss := by
  intro prs
  induction prs with
  | nil => intro _ hne; simp [fsLoop] at hne
  | cons pr rest ih =>
    intro hb hne
    obtain ⟨p, pn⟩ := pr
    obtain ⟨⟨hasc, hwrap⟩, hp, hpn⟩ := hb (p, pn) (List.mem_cons_self _ _)
    have htl := fun q hq => hb q (List.mem_cons_of_mem _ hq)
    simp only [fsLoop] at hne ⊢
    split_ifs at hne ⊢ with h1 h2 h3 h4
    · have hmod : (p + 1) % 65536 = p + 1 := by omega
      rw [hmod]
      intro hmem
      exact hasc (by omega) _ hmem ⟨by omega, by omega⟩
    · have hmod : (p + 1) % 65536 = p + 1 := by omega
      rw [hmod]
      intro hmem
      have := (hwrap h2 _ hmem).2
      omega
    · have hmod : sportl % 65536 = sportl := by omega
      rw [hmod]
      intro hmem
      have := (hwrap h2 _ hmem).1
      omega
    · exact ih htl hne
    · exact ih htl hne

theorem adjPairs_append (l : List Nat) (y x f : Nat) :
    adjPairs (y :: (l ++ [x])) f = adjPairs (y :: l) x ++ [(x, f)] := by
  induction l generalizing y with
  | nil => simp [adjPairs]
  | cons z rest ih =>
    rw [List.cons_append]
    simp only [adjPairs]
    rw [ih z, List.cons_append]

theorem circPairs_rotate_one_mem (l : List Nat) (pr : Nat × Nat)
    (h : pr ∈ circPairs l) : pr ∈ circPairs (l.rotate 1) := by
  match l with
  | [] => simp [circPairs] at h
  | [x] =>
    rw [List.rotate_singleton]
    exact h
  | x :: y :: rest =>
    rw [List.rotate_cons_succ, List.rotate_zero]
    have hgoal : circPairs ((y :: rest) ++ [x]) = adjPairs (y :: rest) x ++ [(x, y)] := by
      rw [List.cons_append]
      show circPairs (y :: (rest ++ [x])) = _
      simp only [circPairs]
      exact adjPairs_append rest y x y
    rw [hgoal]
    simp only [circPairs, adjPairs] at h
    rcases List.mem_cons.mp h with h | h
    · apply List.mem_append_right
      simp [h]
    · exact List.mem_append_left _ h

theorem circPairs_rotate_mem (l : List Nat) (i : Nat) (pr : Nat × Nat)
    (h : pr ∈ circPairs l) : pr ∈ circPairs (l.rotate i) := by
  induction i generalizing l with
  | zero => simpa using h
  | succ n ih =>
    have h1 := circPairs_rotate_one_mem l pr h
    have h2 := ih (l.rotate 1) h1
    rw [List.rotate_rotate] at h2
    have he : 1 + n = n + 1 := by omega
    rwa [he] at h2

theorem adjPairs_mem_split (f : Nat) (pr : Nat × Nat) :
    ∀ l : List Nat, pr ∈ adjPairs l f →
      (∃ l1 l2, l = l1 ++ pr.1 :: pr.2 :: l2) ∨ (pr.2 = f ∧ ∃ l1, l = l1 ++ [pr.1]) := by
  intro l
  induction l with
  | nil => intro h; simp [adjPairs] at h
  | cons x rest ih =>
    intro h
    match rest, ih, h with
    | [], _, h =>
      simp only [adjPairs, List.mem_singleton] at h
      right
      refine ⟨by rw [h], [], by simp [h]⟩
    | y :: rest', ih, h =>
      simp only [adjPairs, List.mem_cons] at h
      rcases h with h | h
      · left
        exact ⟨[], rest', by simp [h]⟩
      · rcases ih h with ⟨l1, l2, hsplit⟩ | ⟨hf, l1, hsplit⟩
        · left
          exact ⟨x :: l1, l2, by simp [hsplit]⟩
        · right
          exact ⟨hf, x :: l1, by simp [hsplit]⟩

theorem circPairs_mem (ss : List Nat) (pr : Nat × Nat) (h : pr ∈ circPairs ss) :
    pr.1 ∈ ss ∧ pr.2 ∈ ss := by
  match ss with
  | [] => simp [circPairs] at h
  | x :: xs =>
    simp only [circPairs] at h
    rcases adjPairs_mem_split x pr _ h with ⟨l1, l2, hs⟩ | ⟨hf, l1, hs⟩
    · rw [hs]
      constructor <;> simp
    · constructor
      · rw [hs]; simp
      · rw [hf]; exact List.mem_cons_self _ _

theorem sorted_circPairs_pairProp (t : List Nat) (ht : List.Chain' (· < ·) t)
    (pr : Nat × Nat) (hpr : pr ∈ circPairs t) : PairProp t pr := by
  match t with
  | [] => simp [circPairs] at hpr
  | x :: xs =>
    have hpw : List.Pairwise (· < ·) (x :: xs) := List.chain'_iff_pairwise.mp ht
    simp only [circPairs] at hpr
    rcases adjPairs_mem_split x pr _ hpr with ⟨l1, l2, hsplit⟩ | ⟨hf, l1, hsplit⟩
    · rw [hsplit] at hpw
      rw [List.pairwise_append] at hpw
      obtain ⟨hpw1, hpw2, hcross⟩ := hpw
      rw [List.pairwise_cons] at hpw2
      obtain ⟨hp_lt, hpw3⟩ := hpw2
      rw [List.pairwise_cons] at hpw3
      obtain ⟨hpn_lt, _⟩ := hpw3
      have hppn : pr.1 < pr.2 := hp_lt pr.2 (List.mem_cons_self _ _)
      constructor
      · intro _ z hz hcontra
        obtain ⟨hz1, hz2⟩ := hcontra
        rw [hsplit] at hz
        rw [List.mem_append, List.mem_cons, List.mem_cons] at hz
        rcases hz with hz | hz | hz | hz
        · have := hcross z hz pr.1 (List.mem_cons_self _ _)
          omega
        · omega
        · omega
        · have := hpn_lt z hz
          omega
      · intro hle
        exact absurd hle (by omega)
    · have hx_le_p : x ≤ pr.1 := by
        match l1, hsplit with
        | [], hsplit =>
          simp only [List.nil_append, List.cons.injEq] at hsplit
          omega
        | z :: l1', hsplit =>
          rw [List.cons_append, List.cons.injEq] at hsplit
          obtain ⟨hxz, hxs⟩ := hsplit
          have hmem : pr.1 ∈ xs := by
            rw [hxs]
            simp
          have := (List.pairwise_cons.mp hpw).1 pr.1 hmem
          omega
      constructor
      · intro hlt
        exact absurd hlt (by omega)
      · intro _ z hz
        constructor
        · rw [hf]
          rcases List.mem_cons.mp hz with hzx | hzx
          · omega
          · have := (List.pairwise_cons.mp hpw).1 z hzx
            omega
        · rw [hsplit] at hz hpw
          rw [List.mem_append, List.mem_singleton] at hz
          rw [List.pairwise_append] at hpw
          rcases hz with hz | hz
          · have := hpw.2.2 z hz pr.1 (List.mem_singleton.mpr rfl)
            omega
          · omega

/-- Claim C2 counterexample: a single-port pattern (`sport_lo = sport_hi =
100`) with one live forward mapping already holding port 100: `find_sport`
succeeds and returns 100, a port equal to a live mapping's source port. -/
theorem find_sport_single_port_cex :
    find_sport 100 100 [100] ≠ 0 ∧ find_sport 100 100 [100] = 100 ∧ (100 : Nat) ∈ [100] := by
  refine ⟨by decide, by decide, by decide⟩

/-- Claim C2 (amended): for a pattern state satisfying the representation
invariant — every live port within `[sportl, sporth]` and the rover-order
port list circularly sorted (some rotation strictly increasing) — a
nonzero `find_sport` result always lies in `[sportl, sporth]`; and when
`sportl < sporth` it additionally equals no live mapping's port.  The
original claim's extension of non-collision to `sport_lo = sport_hi` with
a non-empty list is dropped: there the code returns `sport_lo` even when
it is in use. -/
theorem find_sport_spec (sportl sporth : Nat) (ss : List Nat)
    (hls : sportl ≤ sporth) (hhi : sporth ≤ 65535)
    (hmem : ∀ s ∈ ss, sportl ≤ s ∧ s ≤ sporth)
    (hsort : ∃ i, List.Chain' (· < ·) (ss.rotate i)) :
    (find_sport sportl sporth ss ≠ 0 →
      sportl ≤ find_sport sportl sporth ss ∧ find_sport sportl sporth ss ≤ sporth) ∧
    (sportl < sporth → find_sport sportl sporth ss ≠ 0 →
      find_sport sportl sporth ss ∉ ss) := by
  unfold find_sport
  split
  · rename_i hcase
    constructor
    · intro hne
      omega
    · intro hlt hne
      rcases hcase with hc | hc
      · exact absurd hlt (by omega)
      · rw [hc]
        simp
  · obtain ⟨i, hs⟩ := hsort
    have hpairs : ∀ pr ∈ circPairs ss, PairProp ss pr ∧ pr.1 ≤ sporth ∧ pr.2 ≤ sporth := by
      intro pr hpr
      have hp2 := circPairs_rotate_mem ss i pr hpr
      have hprop := sorted_circPairs_pairProp _ hs pr hp2
      have hmems := circPairs_mem ss pr hpr
      refine ⟨⟨?_, ?_⟩, (hmem _ hmems.1).2, (hmem _ hmems.2).2⟩
      · intro hlt z hz
        exact hprop.1 hlt z (List.mem_rotate.mpr hz)
      · intro hle z hz
        exact hprop.2 hle z (List.mem_rotate.mpr hz)
    have hbounds : ∀ pr ∈ circPairs ss,
        sportl ≤ pr.1 ∧ pr.1 ≤ sporth ∧ sportl ≤ pr.2 ∧ pr.2 ≤ sporth := by
      intro pr hpr
      have hm := circPairs_mem ss pr hpr
      exact ⟨(hmem _ hm.1).1, (hmem _ hm.1).2, (hmem _ hm.2).1, (hmem _ hm.2).2⟩
    constructor
    · exact fsLoop_range sportl sporth hls hhi (circPairs ss) hbounds
    · intro _ hne
      exact fsLoop_nocollide sportl sporth ss hhi (circPairs ss) hpairs hne

/-- Witness for the amended C2 theorem: range `[1, 10]`, live ports
`[5, 7, 2]` in rover order (rotation `[2, 5, 7]` is sorted); the result, 6,
collides with nothing and is in range. -/
theorem find_sport_spec_witness :
    find_sport 1 10 [5, 7, 2] ∉ ([5, 7, 2] : List Nat) :=
  (find_sport_spec 1 10 [5, 7, 2] (by decide) (by decide) (by decide)
    ⟨2, by
      have h : ([5, 7, 2] : List Nat).rotate 2 = [2, 5, 7] := rfl
      rw [h]
      norm_num [List.chain'_cons]⟩).2 (by decide) (by decide)

/-! ### Claim C8: the SPORT token of Pattern::parse -/

theorem checkSportRange_ok (l h : Int) :
    checkSportRange l h = Except.ok (l, h) ↔ 0 ≤ l ∧ l ≤ h ∧ h ≤ 65535 := by
  unfold checkSportRange
  split_ifs with hc
  · constructor
    · intro h'
      exact absurd h' (by simp)
    · intro hb
      omega
  · constructor
    · intro _
      push_neg at hc
      omega
    · intro _
      rfl

theorem checkSportRange_err (l h : Int) :
    (∃ e, checkSportRange l h = Except.error e) ↔ ¬(0 ≤ l ∧ l ≤ h ∧ h ≤ 65535) := by
  unfold checkSportRange
  split_ifs with hc
  · constructor
    · intro _
      omega
    · intro _
      exact ⟨_, rfl⟩
  · constructor
    · rintro ⟨e, he⟩
      exact absurd he (by simp)
    · intro hb
      push_neg at hc
      omega

/-- Claim C8: the SPORT token is accepted as a single integer `n` exactly
when `0 ≤ n ≤ 65535`, and as a range `lo-hi` exactly when
`0 ≤ lo ≤ hi ≤ 65535`; a malformed token is an error; on every failure an
error is reported and no pattern value is produced (the `Except` carries
none).  The `-` wildcard also passes the range check with `(0, 0)`. -/
theorem parse_sport_spec (n lo : Int) (hi : Nat) :
    parse_sport SportTok.dash = Except.ok (0, 0) ∧
    (∃ e, parse_sport SportTok.malformed = Except.error e) ∧
    (parse_sport (SportTok.intTok n) = Except.ok (n, n) ↔ 0 ≤ n ∧ n ≤ 65535) ∧
    ((∃ e, parse_sport (SportTok.intTok n) = Except.error e) ↔ ¬(0 ≤ n ∧ n ≤ 65535)) ∧
    (parse_sport (SportTok.rangeTok lo hi) = Except.ok (lo, (hi : Int)) ↔
      0 ≤ lo ∧ lo ≤ (hi : Int) ∧ (hi : Int) ≤ 65535) ∧
    ((∃ e, parse_sport (SportTok.rangeTok lo hi) = Except.error e) ↔
      ¬(0 ≤ lo ∧ lo ≤ (hi : Int) ∧ (hi : Int) ≤ 65535)) := by
  have hrange : parse_sport (SportTok.rangeTok lo hi) = checkSportRange lo hi := by
    simp only [parse_sport]
    rw [if_neg (show ¬((0 : Int) < -(hi : Int)) by omega)]
  refine ⟨?_, ⟨_, rfl⟩, ?_, ?_, ?_, ?_⟩
  · show checkSportRange 0 0 = Except.ok (0, 0)
    rw [checkSportRange_ok]
    omega
  · show checkSportRange n n = Except.ok (n, n) ↔ _
    rw [checkSportRange_ok]
    omega
  · show (∃ e, checkSportRange n n = Except.error e) ↔ _
    rw [checkSportRange_err]
    constructor <;> (intro h; omega)
  · rw [hrange, checkSportRange_ok]
  · rw [hrange, checkSportRange_err]

/-! ### Table lemmas, Claim C5 (install) and Claim C3 (round trip) -/

theorem tfind_tinsert_self (t : Table) (k : IPFlowID) (v : Option Nat) :
    tfind (tinsert t k v) k = v := by
  induction t with
  | nil =>
    show (if k = k then v else tfind [] k) = v
    rw [if_pos rfl]
  | cons e rest ih =>
    obtain ⟨k', v'⟩ := e
    show tfind (if k' = k then (k, v) :: rest else (k', v') :: tinsert rest k v) k = v
    by_cases hk : k' = k
    · rw [if_pos hk]
      show (if k = k then v else tfind rest k) = v
      rw [if_pos rfl]
    · rw [if_neg hk]
      show (if k' = k then v' else tfind (tinsert rest k v) k) = v
      rw [if_neg hk, ih]

theorem tfind_tinsert_ne (t : Table) (k : IPFlowID) (v : Option Nat) (k' : IPFlowID)
    (h : k' ≠ k) : tfind (tinsert t k v) k' = tfind t k' := by
  induction t with
  | nil =>
    show (if k = k' then v else tfind [] k') = tfind [] k'
    rw [if_neg (fun he => h he.symm)]
  | cons e rest ih =>
    obtain ⟨k0, v0⟩ := e
    show tfind (if k0 = k then (k, v) :: rest else (k0, v0) :: tinsert rest k v) k'
      = tfind ((k0, v0) :: rest) k'
    by_cases hk : k0 = k
    · rw [if_pos hk]
      show (if k = k' then v else tfind rest k') = tfind ((k0, v0) :: rest) k'
      rw [if_neg (fun he => h he.symm)]
      show tfind rest k' = if k0 = k' then v0 else tfind rest k'
      rw [if_neg (fun he => h (he.symm.trans hk))]
    · rw [if_neg hk]
      show (if k0 = k' then v0 else tfind (tinsert rest k v) k')
        = if k0 = k' then v0 else tfind rest k'
      by_cases hk0 : k0 = k'
      · rw [if_pos hk0, if_pos hk0]
      · rw [if_neg hk0, if_neg hk0, ih]

/-- Claim C5: `install` writes the forward mapping under
`reverse->flow_id().rev()` and the reverse mapping under
`forward->flow_id().rev()`, into the TCP table when `is_tcp` and into the
UDP table otherwise, leaving the other protocol's table untouched and every
other key of the chosen table unchanged.  (The two keys are distinct for
any non-degenerate pair.) -/
theorem install_spec (rw0 : RW) (fwdIdx revIdx : Nat)
    (hkk : (rw0.arena revIdx).mapto.rev ≠ (rw0.arena fwdIdx).mapto.rev) :
    (install true fwdIdx revIdx rw0).udp = rw0.udp ∧
    tfind (install true fwdIdx revIdx rw0).tcp ((rw0.arena revIdx).mapto.rev) = some fwdIdx ∧
    tfind (install true fwdIdx revIdx rw0).tcp ((rw0.arena fwdIdx).mapto.rev) = some revIdx ∧
    (∀ k, k ≠ (rw0.arena revIdx).mapto.rev → k ≠ (rw0.arena fwdIdx).mapto.rev →
      tfind (install true fwdIdx revIdx rw0).tcp k = tfind rw0.tcp k) ∧
    (install false fwdIdx revIdx rw0).tcp = rw0.tcp ∧
    tfind (install false fwdIdx revIdx rw0).udp ((rw0.arena revIdx).mapto.rev) = some fwdIdx ∧
    tfind (install false fwdIdx revIdx rw0).udp ((rw0.arena fwdIdx).mapto.rev) = some revIdx ∧
    (∀ k, k ≠ (rw0.arena revIdx).mapto.rev → k ≠ (rw0.arena fwdIdx).mapto.rev →
      tfind (install false fwdIdx revIdx rw0).udp k = tfind rw0.udp k) := by
  refine ⟨rfl, ?_, ?_, ?_, rfl, ?_, ?_, ?_⟩
  · show tfind (install_tab rw0.tcp _ _ _ _) _ = _
    unfold install_tab
    rw [tfind_tinsert_ne _ _ _ _ hkk, tfind_tinsert_self]
  · show tfind (install_tab rw0.tcp _ _ _ _) _ = _
    unfold install_tab
    rw [tfind_tinsert_self]
  · intro k h1 h2
    show tfind (install_tab rw0.tcp _ _ _ _) _ = _
    unfold install_tab
    rw [tfind_tinsert_ne _ _ _ _ h2, tfind_tinsert_ne _ _ _ _ h1]
  · show tfind (install_tab rw0.udp _ _ _ _) _ = _
    unfold install_tab
    rw [tfind_tinsert_ne _ _ _ _ hkk, tfind_tinsert_self]
  · show tfind (install_tab rw0.udp _ _ _ _) _ = _
    unfold install_tab
    rw [tfind_tinsert_self]
  · intro k h1 h2
    show tfind (install_tab rw0.udp _ _ _ _) _ = _
    unfold install_tab
    rw [tfind_tinsert_ne _ _ _ _ h2, tfind_tinsert_ne _ _ _ _ h1]

/-- Witness for C5 at a concrete two-mapping state. -/
theorem install_spec_witness :
    ((RW.mk [] [] (fun j => if j = 0
        then Mapping.ofFlows ⟨⟨1, 2⟩, ⟨3, 4⟩, 5, 6⟩ ⟨⟨7, 8⟩, ⟨3, 4⟩, 9, 6⟩ none 0 false 1
        else Mapping.ofFlows ⟨⟨3, 4⟩, ⟨7, 8⟩, 6, 9⟩ ⟨⟨3, 4⟩, ⟨1, 2⟩, 6, 5⟩ none 1 true 0)).arena 1).mapto.rev
      ≠ ((RW.mk [] [] (fun j => if j = 0
        then Mapping.ofFlows ⟨⟨1, 2⟩, ⟨3, 4⟩, 5, 6⟩ ⟨⟨7, 8⟩, ⟨3, 4⟩, 9, 6⟩ none 0 false 1
        else Mapping.ofFlows ⟨⟨3, 4⟩, ⟨7, 8⟩, 6, 9⟩ ⟨⟨3, 4⟩, ⟨1, 2⟩, 6, 5⟩ none 1 true 0)).arena 0).mapto.rev ∧
    tfind (install true 0 1 (RW.mk [] [] (fun j => if j = 0
        then Mapping.ofFlows ⟨⟨1, 2⟩, ⟨3, 4⟩, 5, 6⟩ ⟨⟨7, 8⟩, ⟨3, 4⟩, 9, 6⟩ none 0 false 1
        else Mapping.ofFlows ⟨⟨3, 4⟩, ⟨7, 8⟩, 6, 9⟩ ⟨⟨3, 4⟩, ⟨1, 2⟩, 6, 5⟩ none 1 true 0))).tcp
      (((RW.mk [] [] (fun j => if j = 0
        then Mapping.ofFlows ⟨⟨1, 2⟩, ⟨3, 4⟩, 5, 6⟩ ⟨⟨7, 8⟩, ⟨3, 4⟩, 9, 6⟩ none 0 false 1
        else Mapping.ofFlows ⟨⟨3, 4⟩, ⟨7, 8⟩, 6, 9⟩ ⟨⟨3, 4⟩, ⟨1, 2⟩, 6, 5⟩ none 1 true 0)).arena 1).mapto.rev)
      = some 0 :=
  ⟨by decide,
   (install_spec (RW.mk [] [] (fun j => if j = 0
       then Mapping.ofFlows ⟨⟨1, 2⟩, ⟨3, 4⟩, 5, 6⟩ ⟨⟨7, 8⟩, ⟨3, 4⟩, 9, 6⟩ none 0 false 1
       else Mapping.ofFlows ⟨⟨3, 4⟩, ⟨7, 8⟩, 6, 9⟩ ⟨⟨3, 4⟩, ⟨1, 2⟩, 6, 5⟩ none 1 true 0))
     0 1 (by decide)).2.1⟩

/-- Claim C3: when `create_mapping` succeeds, `make_pair` builds the pair
`(F → F', F'.rev() → F.rev())` and `install` records the reverse mapping
under key `F'.rev()`; so a reply packet presenting `F'.rev()` looks up the
paired reverse mapping, whose `mapto` is `F.rev()`, and is rewritten back
to `F.rev()` — in whichever protocol table was used. -/
theorem round_trip (inf outf : IPFlowID) (pat : Option Nat) (fo ro fi ri : Nat)
    (rw0 : RW) (hne : fi ≠ ri) :
    tfind (installPair true inf outf pat fo ro fi ri rw0).tcp outf.rev = some ri ∧
    tfind (installPair false inf outf pat fo ro fi ri rw0).udp outf.rev = some ri ∧
    ((installPair true inf outf pat fo ro fi ri rw0).arena ri).mapto = inf.rev ∧
    ((installPair true inf outf pat fo ro fi ri rw0).arena ri).is_reverse = true ∧
    ((installPair true inf outf pat fo ro fi ri rw0).arena ri).reverse = fi ∧
    ((installPair true inf outf pat fo ro fi ri rw0).arena fi).mapto = outf := by
  have harena : ∀ b, (installPair b inf outf pat fo ro fi ri rw0).arena
      = fun j => if j = ri then (make_pair inf outf pat fo ro fi ri).2
                 else if j = fi then (make_pair inf outf pat fo ro fi ri).1
                 else rw0.arena j := by
    intro b
    cases b <;> rfl
  have hri : ∀ b, (installPair b inf outf pat fo ro fi ri rw0).arena ri
      = (make_pair inf outf pat fo ro fi ri).2 := by
    intro b
    rw [harena b]
    simp
  have hfi : ∀ b, (installPair b inf outf pat fo ro fi ri rw0).arena fi
      = (make_pair inf outf pat fo ro fi ri).1 := by
    intro b
    rw [harena b]
    simp [hne]
  have htcp : (installPair true inf outf pat fo ro fi ri rw0).tcp
      = install_tab rw0.tcp inf outf.rev fi ri := by
    show install_tab rw0.tcp
        ((if ri = ri then (make_pair inf outf pat fo ro fi ri).2
          else if ri = fi then (make_pair inf outf pat fo ro fi ri).1
          else rw0.arena ri).mapto.rev)
        ((if fi = ri then (make_pair inf outf pat fo ro fi ri).2
          else if fi = fi then (make_pair inf outf pat fo ro fi ri).1
          else rw0.arena fi).mapto.rev) fi ri = _
    simp [hne, make_pair, Mapping.ofFlows, IPFlowID.rev_rev]
  have hudp : (installPair false inf outf pat fo ro fi ri rw0).udp
      = install_tab rw0.udp inf outf.rev fi ri := by
    show install_tab rw0.udp
        ((if ri = ri then (make_pair inf outf pat fo ro fi ri).2
          else if ri = fi then (make_pair inf outf pat fo ro fi ri).1
          else rw0.arena ri).mapto.rev)
        ((if fi = ri then (make_pair inf outf pat fo ro fi ri).2
          else if fi = fi then (make_pair inf outf pat fo ro fi ri).1
          else rw0.arena fi).mapto.rev) fi ri = _
    simp [hne, make_pair, Mapping.ofFlows, IPFlowID.rev_rev]
  refine ⟨?_, ?_, ?_, ?_, ?_, ?_⟩
  · rw [htcp]
    unfold install_tab
    exact tfind_tinsert_self _ _ _
  · rw [hudp]
    unfold install_tab
    exact tfind_tinsert_self _ _ _
  · rw [hri]
    rfl
  · rw [hri]
    rfl
  · rw [hri]
    rfl
  · rw [hfi]
    rfl

/-- Witness for C3 at concrete flows and indices. -/
theorem round_trip_witness :
    tfind (installPair true ⟨⟨1, 2⟩, ⟨3, 4⟩, 5, 6⟩ ⟨⟨7, 8⟩, ⟨3, 4⟩, 9, 6⟩ none 0 1 0 1
        (RW.mk [] [] (fun _ => Mapping.ofFlows ⟨⟨0, 0⟩, ⟨0, 0⟩, 0, 0⟩ ⟨⟨0, 0⟩, ⟨0, 0⟩, 0, 0⟩ none 0 false 0))).tcp
      (⟨⟨7, 8⟩, ⟨3, 4⟩, 9, 6⟩ : IPFlowID).rev = some 1 :=
  (round_trip ⟨⟨1, 2⟩, ⟨3, 4⟩, 5, 6⟩ ⟨⟨7, 8⟩, ⟨3, 4⟩, 9, 6⟩ none 0 1 0 1
    (RW.mk [] [] (fun _ => Mapping.ofFlows ⟨⟨0, 0⟩, ⟨0, 0⟩, 0, 0⟩ ⟨⟨0, 0⟩, ⟨0, 0⟩, 0, 0⟩ none 0 false 0))
    (by decide)).1

/-! ### Garbage-collection lemmas (pass 1) -/

theorem clearUsed_fields (a : Nat → Mapping) (i j : Nat) :
    (clearUsed a i j).mapto = (a j).mapto ∧ (clearUsed a i j).reverse = (a j).reverse ∧
    (clearUsed a i j).is_reverse = (a j).is_reverse ∧ (clearUsed a i j).pat = (a j).pat := by
  unfold clearUsed
  split_ifs with h
  · subst h
    exact ⟨rfl, rfl, rfl, rfl⟩
  · exact ⟨rfl, rfl, rfl, rfl⟩

theorem clearUsed_used (a : Nat → Mapping) (i j : Nat) :
    (clearUsed a i j).used = if j = i then false else (a j).used := by
  unfold clearUsed
  split_ifs with h
  · subst h
    rfl
  · rfl

theorem pass1_skel (a : Nat → Mapping) (t : Table) (j : Nat) :
    ((pass1 a t).1 j).mapto = (a j).mapto ∧ ((pass1 a t).1 j).reverse = (a j).reverse ∧
    ((pass1 a t).1 j).is_reverse = (a j).is_reverse ∧ ((pass1 a t).1 j).pat = (a j).pat := by
  induction t generalizing a with
  | nil => exact ⟨rfl, rfl, rfl, rfl⟩
  | cons e rest ih =>
    obtain ⟨k, v⟩ := e
    match v with
    | none => exact ih a
    | some i0 =>
      simp only [pass1]
      split
      · exact ih a
      · have h1 := ih (clearUsed a i0)
        have h2 := clearUsed_fields a i0 j
        exact ⟨h1.1.trans h2.1, h1.2.1.trans h2.2.1, h1.2.2.1.trans h2.2.2.1,
               h1.2.2.2.trans h2.2.2.2⟩

theorem pass1_used_mono (a : Nat → Mapping) (t : Table) (j : Nat)
    (h : ((pass1 a t).1 j).used = true) : (a j).used = true := by
  induction t generalizing a with
  | nil => exact h
  | cons e rest ih =>
    obtain ⟨k, v⟩ := e
    match v with
    | none => exact ih a h
    | some i0 =>
      simp only [pass1] at h
      split at h
      · exact ih a h
      · have h1 := ih (clearUsed a i0) h
        rw [clearUsed_used] at h1
        split_ifs at h1
        exact h1

theorem pass1_tf_sub (a : Nat → Mapping) (t : Table) (i : Nat)
    (h : i ∈ (pass1 a t).2) : ∃ k, (k, some i) ∈ t := by
  induction t generalizing a with
  | nil => simp [pass1] at h
  | cons e rest ih =>
    obtain ⟨k, v⟩ := e
    match v with
    | none =>
      obtain ⟨k', hk'⟩ := ih a h
      exact ⟨k', List.mem_cons_of_mem _ hk'⟩
    | some i0 =>
      simp only [pass1] at h
      split at h
      · rcases List.mem_cons.mp h with h | h
        · exact ⟨k, by rw [h]; exact List.mem_cons_self _ _⟩
        · obtain ⟨k', hk'⟩ := ih a h
          exact ⟨k', List.mem_cons_of_mem _ hk'⟩
      · obtain ⟨k', hk'⟩ := ih (clearUsed a i0) h
        exact ⟨k', List.mem_cons_of_mem _ hk'⟩

theorem pass1_tf_forward (a : Nat → Mapping) (t : Table) (i : Nat)
    (h : i ∈ (pass1 a t).2) : (a i).is_reverse = false := by
  induction t generalizing a with
  | nil => simp [pass1] at h
  | cons e rest ih =>
    obtain ⟨k, v⟩ := e
    match v with
    | none => exact ih a h
    | some i0 =>
      simp only [pass1] at h
      split at h
      · rename_i hcond
        rcases List.mem_cons.mp h with h | h
        · subst h
          simp only [Bool.and_eq_true, Bool.not_eq_true'] at hcond
          exact hcond.2
        · exact ih a h
      · have h1 := ih (clearUsed a i0) h
        rw [(clearUsed_fields a i0 i).2.2.1] at h1
        exact h1

theorem pass1_sched_complete (a : Nat → Mapping) (t : Table) (k : IPFlowID) (i : Nat)
    (hmem : (k, some i) ∈ t) (hu : (a i).used = false)
    (hru : (a ((a i).reverse)).used = false) (hf : (a i).is_reverse = false) :
    i ∈ (pass1 a t).2 := by
  induction t generalizing a with
  | nil => simp at hmem
  | cons e rest ih =>
    obtain ⟨k0, v0⟩ := e
    rcases List.mem_cons.mp hmem with he | he
    · cases he
      simp only [pass1]
      split
      · exact List.mem_cons_self _ _
      · rename_i hcond
        exfalso
        apply hcond
        simp [hu, hru, hf]
    · match v0 with
      | none => exact ih a he hu hru hf
      | some i0 =>
        simp only [pass1]
        split
        · exact List.mem_cons_of_mem _ (ih a he hu hru hf)
        · apply ih (clearUsed a i0) he
          · rw [clearUsed_used]
            split_ifs with hh
            · rfl
            · exact hu
          · rw [(clearUsed_fields a i0 i).2.1, clearUsed_used]
            split_ifs with hh
            · rfl
            · exact hru
          · rw [(clearUsed_fields a i0 i).2.2.1]
            exact hf

theorem pass1_cleared (a : Nat → Mapping) (t : Table) (k : IPFlowID) (i : Nat)
    (hmem : (k, some i) ∈ t) (hnotf : i ∉ (pass1 a t).2) :
    ((pass1 a t).1 i).used = false := by
  induction t generalizing a with
  | nil => simp at hmem
  | cons e rest ih =>
    obtain ⟨k0, v0⟩ := e
    rcases List.mem_cons.mp hmem with he | he
    · cases he
      simp only [pass1] at hnotf ⊢
      split_ifs at hnotf ⊢ with hc
      · exact absurd (List.mem_cons_self _ _) hnotf
      · cases hb : ((pass1 (clearUsed a i) rest).1 i).used
        · rfl
        · have := pass1_used_mono (clearUsed a i) rest i hb
          rw [clearUsed_used] at this
          simp at this
    · match v0 with
      | none => exact ih a he hnotf
      | some i0 =>
        simp only [pass1] at hnotf ⊢
        split_ifs at hnotf ⊢ with hc
        · exact ih a he (fun hc2 => hnotf (List.mem_cons_of_mem _ hc2))
        · exact ih (clearUsed a i0) he hnotf

theorem pass1_sched_sound (a0 : Nat → Mapping) (t : Table) :
    ∀ a : Nat → Mapping,
      (∀ j, (a j).reverse = (a0 j).reverse ∧ (a j).is_reverse = (a0 j).is_reverse) →
      (∀ k i, (k, some i) ∈ t → (a i).used = (a0 i).used) →
      (∀ k i, (k, some i) ∈ t → (a0 i).is_reverse = false →
        (a ((a0 i).reverse)).used = (a0 ((a0 i).reverse)).used) →
      (t.filterMap (fun e => e.2)).Nodup →
      (∀ k i, (k, some i) ∈ t → (a0 i).is_reverse = false →
        (a0 ((a0 i).reverse)).is_reverse = true) →
      ForwardFirst a0 t →
      ∀ i, i ∈ (pass1 a t).2 →
        ∃ k, (k, some i) ∈ t ∧ (a0 i).is_reverse = false ∧ (a0 i).used = false ∧
          (a0 ((a0 i).reverse)).used = false := by
  induction t with
  | nil =>
    intro a _ _ _ _ _ _ i hmem
    simp [pass1] at hmem
  | cons e rest ih =>
    intro a hsk h1a h1b hidx h5 hff i hmem
    obtain ⟨k0, v0⟩ := e
    match v0, hidx, hff, hmem with
    | none, hidx, hff, hmem =>
      obtain ⟨k, hk, hrest⟩ := ih a hsk
        (fun k i hm => h1a k i (List.mem_cons_of_mem _ hm))
        (fun k i hm hf => h1b k i (List.mem_cons_of_mem _ hm) hf)
        (by simpa using hidx)
        (fun k i hm hf => h5 k i (List.mem_cons_of_mem _ hm) hf)
        hff i hmem
      exact ⟨k, List.mem_cons_of_mem _ hk, hrest⟩
    | some i0, hidx, hff, hmem =>
      have hidx' : (rest.filterMap (fun e => e.2)).Nodup := by
        rw [List.filterMap_cons] at hidx
        simp only at hidx
        exact (List.nodup_cons.mp hidx).2
      have hi0notin : i0 ∉ rest.filterMap (fun e => e.2) := by
        rw [List.filterMap_cons] at hidx
        simp only at hidx
        exact (List.nodup_cons.mp hidx).1
      simp only [pass1] at hmem
      split at hmem
      · rename_i hcond
        simp only [Bool.and_eq_true, Bool.not_eq_true'] at hcond
        rcases List.mem_cons.mp hmem with he | he
        · subst he
          refine ⟨k0, List.mem_cons_self _ _, ?_, ?_, ?_⟩
          · rw [← (hsk i).2]
            exact hcond.2
          · rw [← h1a k0 i (List.mem_cons_self _ _)]
            exact hcond.1.1
          · rw [← h1b k0 i (List.mem_cons_self _ _) (by rw [← (hsk i).2]; exact hcond.2)]
            rw [← (hsk i).1]
            exact hcond.1.2
        · obtain ⟨k, hk, hrest⟩ := ih a hsk
            (fun k i hm => h1a k i (List.mem_cons_of_mem _ hm))
            (fun k i hm hf => h1b k i (List.mem_cons_of_mem _ hm) hf)
            hidx'
            (fun k i hm hf => h5 k i (List.mem_cons_of_mem _ hm) hf)
            hff.2 i he
          exact ⟨k, List.mem_cons_of_mem _ hk, hrest⟩
      · have hstep : ∀ k i, (k, some i) ∈ rest → (a0 i).is_reverse = false →
            (a0 i).reverse ≠ i0 := by
          intro k i hm hf
          cases hrev : (a0 i0).is_reverse
          · intro hc
            have := h5 k i (List.mem_cons_of_mem _ hm) hf
            rw [hc, hrev] at this
            exact absurd this (by simp)
          · have hnf := hff.1 hrev (k, some i) hm
            simp only [noFwdPtr] at hnf
            rcases hnf with hnf | hnf
            · simp [hf] at hnf
            · exact hnf
        obtain ⟨k, hk, hrest⟩ := ih (clearUsed a i0)
          (fun j => ⟨((clearUsed_fields a i0 j).2.1).trans (hsk j).1,
                     ((clearUsed_fields a i0 j).2.2.1).trans (hsk j).2⟩)
          (fun k i hm => by
            rw [clearUsed_used]
            have hne : i ≠ i0 := by
              intro hc
              apply hi0notin
              rw [← hc]
              exact List.mem_filterMap.mpr ⟨(k, some i), hm, rfl⟩
            rw [if_neg hne]
            exact h1a k i (List.mem_cons_of_mem _ hm))
          (fun k i hm hf => by
            rw [clearUsed_used]
            rw [if_neg (hstep k i hm hf)]
            exact h1b k i (List.mem_cons_of_mem _ hm) hf)
          hidx'
          (fun k i hm hf => h5 k i (List.mem_cons_of_mem _ hm) hf)
          hff.2 i hmem
        exact ⟨k, List.mem_cons_of_mem _ hk, hrest⟩

/-! ### Garbage-collection lemmas (pass 2 and tables) -/

theorem pass2_arena (a : Nat → Mapping) (pats : Nat → List Nat) (h : Table)
    (tf : List Nat) : (pass2 a pats h tf).arena = a := by
  induction tf generalizing pats h with
  | nil => rfl
  | cons i rest ih => exact ih _ _

theorem tinsert_none_keeps_none (t : Table) (k k' : IPFlowID)
    (h : tfind t k = none) : tfind (tinsert t k' none) k = none := by
  by_cases hk : k' = k
  · subst hk
    rw [tfind_tinsert_self]
  · rw [tfind_tinsert_ne _ _ _ _ (fun he => hk he.symm)]
    exact h

theorem tombstone2_find (a : Nat → Mapping) (h : Table) (i : Nat) :
    tfind (tombstone2 a h i) ((a ((a i).reverse)).mapto.rev) = none ∧
    tfind (tombstone2 a h i) ((a i).mapto.rev) = none := by
  unfold tombstone2
  constructor
  · by_cases hk : (a i).mapto.rev = (a ((a i).reverse)).mapto.rev
    · rw [← hk, tfind_tinsert_self]
    · rw [tfind_tinsert_ne _ _ _ _ (fun he => hk he.symm), tfind_tinsert_self]
  · rw [tfind_tinsert_self]

theorem pass2_find_none_mono (a : Nat → Mapping) (tf : List Nat) :
    ∀ (pats : Nat → List Nat) (h : Table) (k : IPFlowID),
      tfind h k = none → tfind (pass2 a pats h tf).table k = none := by
  induction tf with
  | nil => intro pats h k hk; exact hk
  | cons i rest ih =>
    intro pats h k hk
    apply ih
    unfold tombstone2
    exact tinsert_none_keeps_none _ _ _ (tinsert_none_keeps_none _ _ _ hk)

theorem pass2_tomb (a : Nat → Mapping) (tf : List Nat) :
    ∀ (pats : Nat → List Nat) (h : Table) (i : Nat), i ∈ tf →
      tfind (pass2 a pats h tf).table ((a ((a i).reverse)).mapto.rev) = none ∧
      tfind (pass2 a pats h tf).table ((a i).mapto.rev) = none := by
  induction tf with
  | nil => intro _ _ _ hmem; simp at hmem
  | cons i0 rest ih =>
    intro pats h i hmem
    rcases List.mem_cons.mp hmem with he | he
    · subst he
      constructor
      · show tfind (pass2 a (freedPats a pats i) (tombstone2 a h i) rest).table _ = none
        exact pass2_find_none_mono a rest _ _ _ (tombstone2_find a h i).1
      · show tfind (pass2 a (freedPats a pats i) (tombstone2 a h i) rest).table _ = none
        exact pass2_find_none_mono a rest _ _ _ (tombstone2_find a h i).2
    · exact ih _ _ i he

theorem mem_some_of_tinsert_none (t : Table) (k' : IPFlowID) (k : IPFlowID) (j : Nat)
    (h : (k, some j) ∈ tinsert t k' none) : (k, some j) ∈ t := by
  induction t with
  | nil =>
    simp only [tinsert, List.mem_singleton] at h
    exact absurd (congrArg Prod.snd h) (by simp)
  | cons e rest ih =>
    obtain ⟨k0, v0⟩ := e
    simp only [tinsert] at h
    split_ifs at h with hk
    · rcases List.mem_cons.mp h with he | he
      · exact absurd (congrArg Prod.snd he) (by simp)
      · exact List.mem_cons_of_mem _ he
    · rcases List.mem_cons.mp h with he | he
      · exact he ▸ List.mem_cons_self _ _
      · exact List.mem_cons_of_mem _ (ih he)

theorem pass2_table_mem (a : Nat → Mapping) (tf : List Nat) :
    ∀ (pats : Nat → List Nat) (h : Table) (k : IPFlowID) (j : Nat),
      (k, some j) ∈ (pass2 a pats h tf).table → (k, some j) ∈ h := by
  induction tf with
  | nil => intro _ _ _ _ hm; exact hm
  | cons i0 rest ih =>
    intro pats h k j hm
    have h1 := ih _ _ _ _ hm
    unfold tombstone2 at h1
    exact mem_some_of_tinsert_none _ _ _ _ (mem_some_of_tinsert_none _ _ _ _ h1)

theorem tinsert_keys_mem (t : Table) (k : IPFlowID) (v : Option Nat) (k' : IPFlowID) :
    k' ∈ (tinsert t k v).map Prod.fst ↔ k' ∈ t.map Prod.fst ∨ k' = k := by
  induction t with
  | nil => simp [tinsert]
  | cons e rest ih =>
    obtain ⟨k0, v0⟩ := e
    simp only [tinsert]
    split_ifs with hk
    · subst hk
      simp only [List.map_cons, List.mem_cons]
      constructor
      · rintro (he | he)
        · right; exact he
        · left; right; exact he
      · rintro ((he | he) | he)
        · left; exact he
        · right; exact he
        · left; exact he
    · simp only [List.map_cons, List.mem_cons, ih]
      tauto

theorem tinsert_keys_nodup (t : Table) (k : IPFlowID) (v : Option Nat)
    (h : (t.map Prod.fst).Nodup) : ((tinsert t k v).map Prod.fst).Nodup := by
  induction t with
  | nil => simp [tinsert]
  | cons e rest ih =>
    obtain ⟨k0, v0⟩ := e
    simp only [tinsert]
    split_ifs with hk
    · subst hk
      exact h
    · simp only [List.map_cons, List.nodup_cons] at h ⊢
      refine ⟨?_, ih h.2⟩
      intro hc
      rcases (tinsert_keys_mem rest k v k0).mp hc with hc | hc
      · exact h.1 hc
      · exact hk hc

theorem pass2_keys_nodup (a : Nat → Mapping) (tf : List Nat) :
    ∀ (pats : Nat → List Nat) (h : Table),
      (h.map Prod.fst).Nodup → ((pass2 a pats h tf).table.map Prod.fst).Nodup := by
  induction tf with
  | nil => intro _ _ hn; exact hn
  | cons i0 rest ih =>
    intro pats h hn
    apply ih
    unfold tombstone2
    exact tinsert_keys_nodup _ _ _ (tinsert_keys_nodup _ _ _ hn)

theorem tinsert_mem_keep (t : Table) (k : IPFlowID) (v : Option Nat) (k' : IPFlowID)
    (w : Option Nat) (hm : (k, v) ∈ t) (hk : k ≠ k') : (k, v) ∈ tinsert t k' w := by
  induction t with
  | nil => simp at hm
  | cons e rest ih =>
    obtain ⟨k0, v0⟩ := e
    simp only [tinsert]
    split_ifs with h0
    · rcases List.mem_cons.mp hm with he | he
      · exfalso
        apply hk
        rw [← h0]
        exact (congrArg Prod.fst he)
      · exact List.mem_cons_of_mem _ he
    · rcases List.mem_cons.mp hm with he | he
      · exact he ▸ List.mem_cons_self _ _
      · exact List.mem_cons_of_mem _ (ih he)

theorem pass2_mem_keep (a : Nat → Mapping) (tf : List Nat) :
    ∀ (pats : Nat → List Nat) (h : Table) (k : IPFlowID) (v : Option Nat),
      (k, v) ∈ h →
      (∀ i ∈ tf, k ≠ (a ((a i).reverse)).mapto.rev ∧ k ≠ (a i).mapto.rev) →
      (k, v) ∈ (pass2 a pats h tf).table := by
  induction tf with
  | nil => intro _ _ _ _ hm _; exact hm
  | cons i0 rest ih =>
    intro pats h k v hm hk
    apply ih
    · unfold tombstone2
      apply tinsert_mem_keep
      · apply tinsert_mem_keep _ _ _ _ _ hm
        exact (hk i0 (List.mem_cons_self _ _)).1
      · exact (hk i0 (List.mem_cons_self _ _)).2
    · intro i hi
      exact hk i (List.mem_cons_of_mem _ hi)

theorem tfind_of_mem_nodup (t : Table) (k : IPFlowID) (v : Option Nat)
    (hm : (k, v) ∈ t) (hn : (t.map Prod.fst).Nodup) : tfind t k = v := by
  induction t with
  | nil => simp at hm
  | cons e rest ih =>
    obtain ⟨k0, v0⟩ := e
    rcases List.mem_cons.mp hm with he | he
    · obtain ⟨h1, h2⟩ := Prod.mk.injEq k0 v0 k v ▸ he.symm
      show (if k0 = k then v0 else tfind rest k) = v
      rw [if_pos h1, h2]
    · simp only [List.map_cons, List.nodup_cons] at hn
      have hkne : k0 ≠ k := by
        intro hc
        apply hn.1
        rw [hc]
        exact List.mem_map.mpr ⟨(k, v), he, rfl⟩
      show (if k0 = k then v0 else tfind rest k) = v
      rw [if_neg hkne]
      exact ih he hn.2

theorem pass2_freed_iff (a : Nat → Mapping) (tf : List Nat) :
    ∀ (pats : Nat → List Nat) (h : Table) (j : Nat),
      j ∈ (pass2 a pats h tf).freed ↔ ∃ i, i ∈ tf ∧ (j = i ∨ j = (a i).reverse) := by
  induction tf with
  | nil =>
    intro _ _ j
    constructor
    · intro hm
      simp [pass2] at hm
    · rintro ⟨i, hi, _⟩
      simp at hi
  | cons i0 rest ih =>
    intro pats h j
    constructor
    · intro hm
      rcases List.mem_cons.mp hm with he | hm2
      · exact ⟨i0, List.mem_cons_self _ _, Or.inr he⟩
      · rcases List.mem_cons.mp hm2 with he | hm3
        · exact ⟨i0, List.mem_cons_self _ _, Or.inl he⟩
        · obtain ⟨i, hi, hj⟩ := (ih _ _ j).mp hm3
          exact ⟨i, List.mem_cons_of_mem _ hi, hj⟩
    · rintro ⟨i, hi, hj⟩
      rcases List.mem_cons.mp hi with he | hi2
      · subst he
        rcases hj with hj | hj
        · exact List.mem_cons_of_mem _ (hj ▸ List.mem_cons_self _ _)
        · exact hj ▸ List.mem_cons_self _ _
      · exact List.mem_cons_of_mem _ (List.mem_cons_of_mem _
          ((ih _ _ j).mpr ⟨i, hi2, hj⟩))

theorem mapping_freed_subset (l : List Nat) (m j : Nat)
    (h : j ∈ mapping_freed l m) : j ∈ l := by
  match l with
  | [] => simp [mapping_freed] at h
  | r :: rest =>
    simp only [mapping_freed] at h
    split_ifs at h with hm
    · exact List.mem_cons_of_mem _ h
    · rcases List.mem_cons.mp h with he | he
      · rw [he]
        exact List.mem_cons_self _ _
      · exact List.mem_cons_of_mem _ (List.mem_of_mem_erase he)

theorem mapping_freed_nodup (l : List Nat) (m : Nat) (h : l.Nodup) :
    (mapping_freed l m).Nodup := by
  match l with
  | [] => simp [mapping_freed]
  | r :: rest =>
    simp only [mapping_freed]
    split_ifs with hm
    · exact (List.nodup_cons.mp h).2
    · rw [List.nodup_cons]
      exact ⟨fun hc => (List.nodup_cons.mp h).1 (List.mem_of_mem_erase hc),
             ((List.nodup_cons.mp h).2).erase m⟩

theorem mapping_freed_not_mem (l : List Nat) (m : Nat) (h : l.Nodup) :
    m ∉ mapping_freed l m := by
  match l with
  | [] => simp [mapping_freed]
  | r :: rest =>
    simp only [mapping_freed]
    split_ifs with hm
    · rw [hm]
      exact (List.nodup_cons.mp h).1
    · intro hc
      rcases List.mem_cons.mp hc with hc | hc
      · exact hm hc
      · exact absurd (((List.nodup_cons.mp h).2.mem_erase_iff).mp hc).1 (by simp)

theorem freedPats_subset (a : Nat → Mapping) (pats : Nat → List Nat) (i q j : Nat)
    (h : j ∈ freedPats a pats i q) : j ∈ pats q := by
  unfold freedPats at h
  cases hp : (a i).pat with
  | none =>
    rw [hp] at h
    exact h
  | some p =>
    rw [hp] at h
    simp only at h
    split_ifs at h with hq
    · subst hq
      exact mapping_freed_subset _ _ _ h
    · exact h

theorem freedPats_nodup (a : Nat → Mapping) (pats : Nat → List Nat) (i q : Nat)
    (h : (pats q).Nodup) : (freedPats a pats i q).Nodup := by
  unfold freedPats
  cases hp : (a i).pat with
  | none => exact h
  | some p =>
    simp only
    split_ifs with hq
    · subst hq
      exact mapping_freed_nodup _ _ h
    · exact h

theorem pass2_pats_subset (a : Nat → Mapping) (tf : List Nat) :
    ∀ (pats : Nat → List Nat) (h : Table) (q j : Nat),
      j ∈ (pass2 a pats h tf).pats q → j ∈ pats q := by
  induction tf with
  | nil => intro _ _ _ _ hm; exact hm
  | cons i0 rest ih =>
    intro pats h q j hm
    exact freedPats_subset _ _ _ _ _ (ih _ _ _ _ hm)

theorem pass2_pats_nodup (a : Nat → Mapping) (tf : List Nat) :
    ∀ (pats : Nat → List Nat) (h : Table) (q : Nat),
      (pats q).Nodup → ((pass2 a pats h tf).pats q).Nodup := by
  induction tf with
  | nil => intro _ _ _ hn; exact hn
  | cons i0 rest ih =>
    intro pats h q hn
    exact ih _ _ _ (freedPats_nodup _ _ _ _ hn)

theorem pass2_unlink (a : Nat → Mapping) (tf : List Nat) :
    ∀ (pats : Nat → List Nat) (h : Table) (i q : Nat),
      (pats q).Nodup → i ∈ tf → (a i).pat = some q →
      i ∉ (pass2 a pats h tf).pats q := by
  induction tf with
  | nil => intro _ _ _ _ _ hm _; simp at hm
  | cons i0 rest ih =>
    intro pats h i q hnd hmem hpat
    rcases List.mem_cons.mp hmem with he | he
    · subst he
      intro hc
      have h1 := pass2_pats_subset a rest _ _ _ _ hc
      have h2 : freedPats a pats i q = mapping_freed (pats q) i := by
        unfold freedPats
        rw [hpat]
        simp
      rw [h2] at h1
      exact mapping_freed_not_mem _ _ hnd h1
    · exact ih _ _ i q (freedPats_nodup _ _ _ _ hnd) he hpat

/-! ### Well-formedness helpers and the to_free characterization -/

theorem clean_map_eq (a : Nat → Mapping) (pats : Nat → List Nat) (h : Table) :
    clean_map a pats h = pass2 (pass1 a h).1 pats h (pass1 a h).2 := rfl

theorem tinsert_mem_self (t : Table) (k : IPFlowID) (v : Option Nat) :
    (k, v) ∈ tinsert t k v := by
  induction t with
  | nil => exact List.mem_singleton.mpr rfl
  | cons e rest ih =>
    obtain ⟨k0, v0⟩ := e
    simp only [tinsert]
    split_ifs with hk
    · exact List.mem_cons_self _ _
    · exact List.mem_cons_of_mem _ ih

theorem WF_entry (a : Nat → Mapping) (pats : Nat → List Nat) (t : Table)
    (hwf : WF a pats t) (k : IPFlowID) (i : Nat) (hm : (k, some i) ∈ t) :
    (a ((a i).reverse)).reverse = i ∧
    (a ((a i).reverse)).is_reverse = !(a i).is_reverse ∧
    k = (a ((a i).reverse)).mapto.rev ∧
    ((a i).mapto.rev, some (a i).reverse) ∈ t ∧
    optProp (fun p => (pats p).Nodup) (a i).pat :=
  hwf.2 (k, some i) hm

theorem idx_nodup_of_keyinj (t : Table)
    (hkeys : (t.map Prod.fst).Nodup)
    (hinj : ∀ k k' i, (k, some i) ∈ t → (k', some i) ∈ t → k = k') :
    (t.filterMap (fun e => e.2)).Nodup := by
  induction t with
  | nil => simp
  | cons e rest ih =>
    obtain ⟨k, v⟩ := e
    simp only [List.map_cons, List.nodup_cons] at hkeys
    match v with
    | none =>
      rw [List.filterMap_cons_none (by rfl)]
      exact ih hkeys.2
        (fun k1 k2 i h1 h2 => hinj k1 k2 i (List.mem_cons_of_mem _ h1) (List.mem_cons_of_mem _ h2))
    | some i =>
      rw [List.filterMap_cons_some
        (show (fun (e : IPFlowID × Option Nat) => e.2) (k, some i) = some i from rfl)]
      rw [List.nodup_cons]
      constructor
      · intro hc
        obtain ⟨e2, he2, hfe⟩ := List.mem_filterMap.mp hc
        obtain ⟨k2, v2⟩ := e2
        simp only at hfe
        subst hfe
        have hkeq := hinj k k2 i (List.mem_cons_self _ _) (List.mem_cons_of_mem _ he2)
        apply hkeys.1
        rw [hkeq]
        exact List.mem_map.mpr ⟨(k2, some i), he2, rfl⟩
      · exact ih hkeys.2
          (fun k1 k2 i h1 h2 => hinj k1 k2 i (List.mem_cons_of_mem _ h1) (List.mem_cons_of_mem _ h2))

theorem WF_idx_nodup (a : Nat → Mapping) (pats : Nat → List Nat) (t : Table)
    (hwf : WF a pats t) : (t.filterMap (fun e => e.2)).Nodup :=
  idx_nodup_of_keyinj t hwf.1 (fun k k' i h1 h2 => by
    rw [(WF_entry a pats t hwf k i h1).2.2.1, (WF_entry a pats t hwf k' i h2).2.2.1])

/-- The `to_free` list of a GC pass contains exactly the forward entries
whose own and partner `used` flags are both clear at pass start, provided
the table is well-formed and each forward entry precedes its reverse. -/
theorem to_free_iff (a : Nat → Mapping) (pats : Nat → List Nat) (t : Table)
    (hwf : WF a pats t) (hff : ForwardFirst a t) (i : Nat) :
    i ∈ (pass1 a t).2 ↔
      ∃ k, (k, some i) ∈ t ∧ (a i).is_reverse = false ∧ (a i).used = false ∧
        (a ((a i).reverse)).used = false := by
  constructor
  · intro hm
    exact pass1_sched_sound a t a (fun j => ⟨rfl, rfl⟩) (fun _ _ _ => rfl)
      (fun _ _ _ _ => rfl) (WF_idx_nodup a pats t hwf)
      (fun k i' hm' hf => by
        have hE := WF_entry a pats t hwf k i' hm'
        rw [hE.2.1, hf]
        rfl)
      hff i hm
  · rintro ⟨k, hm, hf, hu, hru⟩
    exact pass1_sched_complete a t k i hm hu hru hf

/-! ### Claim C6: one GC pass -/

/-- Claim C6: over a well-formed table whose forward entries precede their
reverses (install order), one `clean_map` pass (i) frees — in linked pairs,
reverse and forward together — exactly the forward entries whose own and
partner `used` flags were both false, (ii) schedules no reverse entry
directly, (iii) clears the `used` flag of every entry that survives,
(iv) leaves an explicit null under both of each freed pair's keys, and
(v) unlinks each freed forward with a pattern from that pattern's rover
list. -/
theorem clean_map_spec (a : Nat → Mapping) (pats : Nat → List Nat) (t : Table)
    (hwf : WF a pats t) (hff : ForwardFirst a t) :
    (∀ j, j ∈ (clean_map a pats t).freed ↔
      ∃ k i, (k, some i) ∈ t ∧ (a i).is_reverse = false ∧ (a i).used = false ∧
        (a ((a i).reverse)).used = false ∧ (j = i ∨ j = (a i).reverse)) ∧
    (∀ i, i ∈ (pass1 a t).2 → (a i).is_reverse = false) ∧
    (∀ k i, (k, some i) ∈ t → i ∉ (clean_map a pats t).freed →
      ((clean_map a pats t).arena i).used = false) ∧
    (∀ i, i ∈ (pass1 a t).2 →
      tfind (clean_map a pats t).table ((a ((a i).reverse)).mapto.rev) = none ∧
      tfind (clean_map a pats t).table ((a i).mapto.rev) = none) ∧
    (∀ i q, i ∈ (pass1 a t).2 → (a i).pat = some q →
      i ∉ (clean_map a pats t).pats q) := by
  have hskel := pass1_skel a t
  refine ⟨?_, ?_, ?_, ?_, ?_⟩
  · intro j
    rw [clean_map_eq, pass2_freed_iff]
    constructor
    · rintro ⟨i, hi, hj⟩
      obtain ⟨k, hm, hf, hu, hru⟩ := (to_free_iff a pats t hwf hff i).mp hi
      rw [(hskel i).2.1] at hj
      exact ⟨k, i, hm, hf, hu, hru, hj⟩
    · rintro ⟨k, i, hm, hf, hu, hru, hj⟩
      refine ⟨i, (to_free_iff a pats t hwf hff i).mpr ⟨k, hm, hf, hu, hru⟩, ?_⟩
      rw [(hskel i).2.1]
      exact hj
  · exact fun i hi => pass1_tf_forward a t i hi
  · intro k i hm hnf
    rw [clean_map_eq, pass2_arena]
    apply pass1_cleared a t k i hm
    intro hc
    apply hnf
    rw [clean_map_eq, pass2_freed_iff]
    exact ⟨i, hc, Or.inl rfl⟩
  · intro i hi
    have h2 := pass2_tomb (pass1 a t).1 (pass1 a t).2 pats t i hi
    rw [clean_map_eq]
    constructor
    · have hk : ((pass1 a t).1 (((pass1 a t).1 i).reverse)).mapto.rev
          = (a ((a i).reverse)).mapto.rev := by
        rw [(hskel i).2.1, (hskel ((a i).reverse)).1]
      rw [← hk]
      exact h2.1
    · have hk : ((pass1 a t).1 i).mapto.rev = (a i).mapto.rev := by
        rw [(hskel i).1]
      rw [← hk]
      exact h2.2
  · intro i q hi hq
    obtain ⟨k, hm⟩ := pass1_tf_sub a t i hi
    have hE := WF_entry a pats t hwf k i hm
    have hnodup : (pats q).Nodup := by
      have h5 := hE.2.2.2.2
      rw [hq] at h5
      exact h5
    rw [clean_map_eq]
    apply pass2_unlink (pass1 a t).1 (pass1 a t).2 pats t i q hnodup hi
    rw [(hskel i).2.2.2]
    exact hq

/-- Witness for C6 at a concrete one-pair table whose forward side is
marked used, so the pair survives the pass and has its flag cleared. -/
theorem clean_map_spec_witness :
    ((clean_map
        (fun j => if j = 0
          then ⟨⟨⟨7, 8⟩, ⟨3, 4⟩, 9, 6⟩, 0, true, false, 1, none, 0, 0⟩
          else ⟨⟨⟨3, 4⟩, ⟨1, 2⟩, 6, 5⟩, 0, false, true, 0, none, 0, 0⟩)
        (fun _ => [])
        [(⟨⟨1, 2⟩, ⟨3, 4⟩, 5, 6⟩, some 0), (⟨⟨3, 4⟩, ⟨7, 8⟩, 6, 9⟩, some 1)]).arena 0).used
      = false :=
  (clean_map_spec
    (fun j => if j = 0
      then ⟨⟨⟨7, 8⟩, ⟨3, 4⟩, 9, 6⟩, 0, true, false, 1, none, 0, 0⟩
      else ⟨⟨⟨3, 4⟩, ⟨1, 2⟩, 6, 5⟩, 0, false, true, 0, none, 0, 0⟩)
    (fun _ => [])
    [(⟨⟨1, 2⟩, ⟨3, 4⟩, 5, 6⟩, some 0), (⟨⟨3, 4⟩, ⟨7, 8⟩, 6, 9⟩, some 1)]
    (by decide) (by decide)).2.2.1 ⟨⟨1, 2⟩, ⟨3, 4⟩, 5, 6⟩ 0 (by decide) (by decide)

/-! ### Claim C9: a fresh pair is collected by the very first tick -/

/-- Claim C9: `make_pair` constructs both mappings with `used = false`, so
a pair that is installed and never has `apply` called on it is scheduled
and collected by the very first GC tick after installation: after one
`clean_map` both arena slots are freed and both table keys read as null. -/
theorem fresh_pair_first_tick (inf outf : IPFlowID) (pat : Option Nat)
    (fo ro fi ri : Nat) (rw0 : RW) (pats : Nat → List Nat)
    (hne : fi ≠ ri) (hkey : inf ≠ outf.rev) :
    (make_pair inf outf pat fo ro fi ri).1.used = false ∧
    (make_pair inf outf pat fo ro fi ri).2.used = false ∧
    fi ∈ (clean_map (installPair true inf outf pat fo ro fi ri rw0).arena pats
      (installPair true inf outf pat fo ro fi ri rw0).tcp).freed ∧
    ri ∈ (clean_map (installPair true inf outf pat fo ro fi ri rw0).arena pats
      (installPair true inf outf pat fo ro fi ri rw0).tcp).freed ∧
    tfind (clean_map (installPair true inf outf pat fo ro fi ri rw0).arena pats
      (installPair true inf outf pat fo ro fi ri rw0).tcp).table inf = none ∧
    tfind (clean_map (installPair true inf outf pat fo ro fi ri rw0).arena pats
      (installPair true inf outf pat fo ro fi ri rw0).tcp).table outf.rev = none := by
  have harena : (installPair true inf outf pat fo ro fi ri rw0).arena
      = fun j => if j = ri then (make_pair inf outf pat fo ro fi ri).2
                 else if j = fi then (make_pair inf outf pat fo ro fi ri).1
                 else rw0.arena j := rfl
  have hA_ri : (installPair true inf outf pat fo ro fi ri rw0).arena ri
      = (make_pair inf outf pat fo ro fi ri).2 := by
    rw [harena]
    simp
  have hA_fi : (installPair true inf outf pat fo ro fi ri rw0).arena fi
      = (make_pair inf outf pat fo ro fi ri).1 := by
    rw [harena]
    simp [hne]
  have htcp : (installPair true inf outf pat fo ro fi ri rw0).tcp
      = tinsert (tinsert rw0.tcp inf (some fi)) outf.rev (some ri) := by
    show install_tab rw0.tcp
        ((if ri = ri then (make_pair inf outf pat fo ro fi ri).2
          else if ri = fi then (make_pair inf outf pat fo ro fi ri).1
          else rw0.arena ri).mapto.rev)
        ((if fi = ri then (make_pair inf outf pat fo ro fi ri).2
          else if fi = fi then (make_pair inf outf pat fo ro fi ri).1
          else rw0.arena fi).mapto.rev) fi ri = _
    simp [hne, make_pair, Mapping.ofFlows, IPFlowID.rev_rev, install_tab]
  have hmem : (inf, some fi) ∈ (installPair true inf outf pat fo ro fi ri rw0).tcp := by
    rw [htcp]
    exact tinsert_mem_keep _ _ _ _ _ (tinsert_mem_self _ _ _) hkey
  have hu : ((installPair true inf outf pat fo ro fi ri rw0).arena fi).used = false := by
    rw [hA_fi]
    rfl
  have hrevfi : ((installPair true inf outf pat fo ro fi ri rw0).arena fi).reverse = ri := by
    rw [hA_fi]
    rfl
  have hru : ((installPair true inf outf pat fo ro fi ri rw0).arena
      (((installPair true inf outf pat fo ro fi ri rw0).arena fi).reverse)).used = false := by
    rw [hrevfi, hA_ri]
    rfl
  have hf : ((installPair true inf outf pat fo ro fi ri rw0).arena fi).is_reverse = false := by
    rw [hA_fi]
    rfl
  have htf : fi ∈ (pass1 (installPair true inf outf pat fo ro fi ri rw0).arena
      (installPair true inf outf pat fo ro fi ri rw0).tcp).2 :=
    pass1_sched_complete _ _ inf fi hmem hu hru hf
  have hskel := pass1_skel (installPair true inf outf pat fo ro fi ri rw0).arena
    (installPair true inf outf pat fo ro fi ri rw0).tcp
  have htomb := pass2_tomb
    (pass1 (installPair true inf outf pat fo ro fi ri rw0).arena
      (installPair true inf outf pat fo ro fi ri rw0).tcp).1
    (pass1 (installPair true inf outf pat fo ro fi ri rw0).arena
      (installPair true inf outf pat fo ro fi ri rw0).tcp).2
    pats (installPair true inf outf pat fo ro fi ri rw0).tcp fi htf
  have hk1 : ((pass1 (installPair true inf outf pat fo ro fi ri rw0).arena
        (installPair true inf outf pat fo ro fi ri rw0).tcp).1
      (((pass1 (installPair true inf outf pat fo ro fi ri rw0).arena
        (installPair true inf outf pat fo ro fi ri rw0).tcp).1 fi).reverse)).mapto.rev
      = inf := by
    rw [(hskel fi).2.1, hrevfi, (hskel ri).1, hA_ri]
    rfl
  have hk2 : ((pass1 (installPair true inf outf pat fo ro fi ri rw0).arena
        (installPair true inf outf pat fo ro fi ri rw0).tcp).1 fi).mapto.rev
      = outf.rev := by
    rw [(hskel fi).1, hA_fi]
    rfl
  rw [hk1, hk2] at htomb
  refine ⟨rfl, rfl, ?_, ?_, ?_, ?_⟩
  · rw [clean_map_eq, pass2_freed_iff]
    exact ⟨fi, htf, Or.inl rfl⟩
  · rw [clean_map_eq, pass2_freed_iff]
    refine ⟨fi, htf, Or.inr ?_⟩
    rw [(hskel fi).2.1, hrevfi]
  · rw [clean_map_eq]
    exact htomb.1
  · rw [clean_map_eq]
    exact htomb.2

/-- Witness for C9 at concrete flows. -/
theorem fresh_pair_first_tick_witness :
    tfind (clean_map (installPair true ⟨⟨1, 2⟩, ⟨3, 4⟩, 5, 6⟩ ⟨⟨7, 8⟩, ⟨3, 4⟩, 9, 6⟩ none 0 1 0 1
        (RW.mk [] [] (fun _ => Mapping.ofFlows ⟨⟨0, 0⟩, ⟨0, 0⟩, 0, 0⟩ ⟨⟨0, 0⟩, ⟨0, 0⟩, 0, 0⟩ none 0 false 0))).arena
      (fun _ => [])
      (installPair true ⟨⟨1, 2⟩, ⟨3, 4⟩, 5, 6⟩ ⟨⟨7, 8⟩, ⟨3, 4⟩, 9, 6⟩ none 0 1 0 1
        (RW.mk [] [] (fun _ => Mapping.ofFlows ⟨⟨0, 0⟩, ⟨0, 0⟩, 0, 0⟩ ⟨⟨0, 0⟩, ⟨0, 0⟩, 0, 0⟩ none 0 false 0))).tcp).table
      ⟨⟨1, 2⟩, ⟨3, 4⟩, 5, 6⟩ = none :=
  (fresh_pair_first_tick ⟨⟨1, 2⟩, ⟨3, 4⟩, 5, 6⟩ ⟨⟨7, 8⟩, ⟨3, 4⟩, 9, 6⟩ none 0 1 0 1
    (RW.mk [] [] (fun _ => Mapping.ofFlows ⟨⟨0, 0⟩, ⟨0, 0⟩, 0, 0⟩ ⟨⟨0, 0⟩, ⟨0, 0⟩, 0, 0⟩ none 0 false 0))
    (fun _ => []) (by decide) (by decide)).2.2.2.2.1

/-! ### Claim C10: tombstoned keys miss, and can be reinstalled at once -/

/-- Claim C10: after GC schedules a pair (both `used` flags clear, forward
entry), its two table keys read as null — `push` on either flow takes the
miss path `if (!m)` — and a fresh pair can be installed over the
tombstoned keys immediately: the two inserts of `install` replace the
nulls, and lookups then return the new mappings. -/
theorem tombstone_then_reinstall (a : Nat → Mapping) (pats : Nat → List Nat)
    (t : Table) (k0 : IPFlowID) (i : Nat)
    (hm : (k0, some i) ∈ t) (hf : (a i).is_reverse = false)
    (hu : (a i).used = false) (hru : (a ((a i).reverse)).used = false)
    (hkk : (a ((a i).reverse)).mapto.rev ≠ (a i).mapto.rev) :
    tfind (clean_map a pats t).table ((a ((a i).reverse)).mapto.rev) = none ∧
    tfind (clean_map a pats t).table ((a i).mapto.rev) = none ∧
    ∀ fi ri,
      tfind (install_tab (clean_map a pats t).table ((a ((a i).reverse)).mapto.rev)
        ((a i).mapto.rev) fi ri) ((a ((a i).reverse)).mapto.rev) = some fi ∧
      tfind (install_tab (clean_map a pats t).table ((a ((a i).reverse)).mapto.rev)
        ((a i).mapto.rev) fi ri) ((a i).mapto.rev) = some ri := by
  have hskel := pass1_skel a t
  have htf : i ∈ (pass1 a t).2 := pass1_sched_complete a t k0 i hm hu hru hf
  have htomb := pass2_tomb (pass1 a t).1 (pass1 a t).2 pats t i htf
  have hk1 : ((pass1 a t).1 (((pass1 a t).1 i).reverse)).mapto.rev
      = (a ((a i).reverse)).mapto.rev := by
    rw [(hskel i).2.1, (hskel ((a i).reverse)).1]
  have hk2 : ((pass1 a t).1 i).mapto.rev = (a i).mapto.rev := by
    rw [(hskel i).1]
  refine ⟨?_, ?_, ?_⟩
  · rw [clean_map_eq, ← hk1]
    exact htomb.1
  · rw [clean_map_eq, ← hk2]
    exact htomb.2
  · intro fi ri
    constructor
    · unfold install_tab
      rw [tfind_tinsert_ne _ _ _ _ hkk, tfind_tinsert_self]
    · unfold install_tab
      rw [tfind_tinsert_self]

/-- Witness for C10 at a concrete one-pair table with both flags clear. -/
theorem tombstone_then_reinstall_witness :
    tfind (clean_map
        (fun j => if j = 0
          then ⟨⟨⟨7, 8⟩, ⟨3, 4⟩, 9, 6⟩, 0, false, false, 1, none, 0, 0⟩
          else ⟨⟨⟨3, 4⟩, ⟨1, 2⟩, 6, 5⟩, 0, false, true, 0, none, 0, 0⟩)
        (fun _ => [])
        [(⟨⟨1, 2⟩, ⟨3, 4⟩, 5, 6⟩, some 0), (⟨⟨3, 4⟩, ⟨7, 8⟩, 6, 9⟩, some 1)]).table
      ⟨⟨1, 2⟩, ⟨3, 4⟩, 5, 6⟩ = none :=
  (tombstone_then_reinstall
    (fun j => if j = 0
      then ⟨⟨⟨7, 8⟩, ⟨3, 4⟩, 9, 6⟩, 0, false, false, 1, none, 0, 0⟩
      else ⟨⟨⟨3, 4⟩, ⟨1, 2⟩, 6, 5⟩, 0, false, true, 0, none, 0, 0⟩)
    (fun _ => [])
    [(⟨⟨1, 2⟩, ⟨3, 4⟩, 5, 6⟩, some 0), (⟨⟨3, 4⟩, ⟨7, 8⟩, 6, 9⟩, some 1)]
    ⟨⟨1, 2⟩, ⟨3, 4⟩, 5, 6⟩ 0 (by decide) (by decide) (by decide) (by decide) (by decide)).1

/-! ### Claim C7: two GC ticks with no traffic -/

theorem mem_unique_of_keys_nodup (t : Table) (k : IPFlowID) (v1 v2 : Option Nat)
    (h1 : (k, v1) ∈ t) (h2 : (k, v2) ∈ t) (hn : (t.map Prod.fst).Nodup) : v1 = v2 := by
  have e1 := tfind_of_mem_nodup t k v1 h1 hn
  have e2 := tfind_of_mem_nodup t k v2 h2 hn
  rw [e1] at e2
  exact e2

/-- A live entry that survives a `clean_map` was in the original table, and
its key is distinct from every tombstoned key of the pass. -/
theorem survivor_not_scheduled (a : Nat → Mapping) (pats : Nat → List Nat) (t : Table)
    (hwf : WF a pats t) (k : IPFlowID) (i : Nat)
    (hm2 : (k, some i) ∈ (clean_map a pats t).table) :
    (k, some i) ∈ t ∧
    (∀ i', i' ∈ (pass1 a t).2 →
      k ≠ (a ((a i').reverse)).mapto.rev ∧ k ≠ (a i').mapto.rev) := by
  have hskel := pass1_skel a t
  have hmem_t : (k, some i) ∈ t := by
    rw [clean_map_eq] at hm2
    exact pass2_table_mem _ _ _ _ _ _ hm2
  have hn2 : ((clean_map a pats t).table.map Prod.fst).Nodup := by
    rw [clean_map_eq]
    exact pass2_keys_nodup _ _ _ _ hwf.1
  have hfind : tfind (clean_map a pats t).table k = some i :=
    tfind_of_mem_nodup _ _ _ hm2 hn2
  refine ⟨hmem_t, ?_⟩
  intro i' hi'
  have htomb := pass2_tomb (pass1 a t).1 (pass1 a t).2 pats t i' hi'
  rw [← clean_map_eq] at htomb
  have hk1 : ((pass1 a t).1 (((pass1 a t).1 i').reverse)).mapto.rev
      = (a ((a i').reverse)).mapto.rev := by
    rw [(hskel i').2.1, (hskel ((a i').reverse)).1]
  have hk2 : ((pass1 a t).1 i').mapto.rev = (a i').mapto.rev := by
    rw [(hskel i').1]
  rw [hk1, hk2] at htomb
  constructor
  · intro hc
    rw [hc, htomb.1] at hfind
    exact absurd hfind (by simp)
  · intro hc
    rw [hc, htomb.2] at hfind
    exact absurd hfind (by simp)

/-- One `clean_map` pass preserves the linked-pair well-formedness of the
table. -/
theorem clean_map_WF (a : Nat → Mapping) (pats : Nat → List Nat) (t : Table)
    (hwf : WF a pats t) :
    WF (clean_map a pats t).arena (clean_map a pats t).pats (clean_map a pats t).table := by
  have hskel := pass1_skel a t
  have harena : (clean_map a pats t).arena = (pass1 a t).1 := by
    rw [clean_map_eq, pass2_arena]
  constructor
  · rw [clean_map_eq]
    exact pass2_keys_nodup _ _ _ _ hwf.1
  · intro e hm2
    obtain ⟨k, v⟩ := e
    match v with
    | none => trivial
    | some i =>
      obtain ⟨hmem_t, hkeys_ne⟩ := survivor_not_scheduled a pats t hwf k i hm2
      have hE := WF_entry a pats t hwf k i hmem_t
      refine ⟨?_, ?_, ?_, ?_, ?_⟩
      · rw [harena, (hskel i).2.1, (hskel ((a i).reverse)).2.1]
        exact hE.1
      · rw [harena, (hskel i).2.1, (hskel ((a i).reverse)).2.2.1, (hskel i).2.2.1]
        exact hE.2.1
      · show k = _
        rw [harena, (hskel i).2.1, (hskel ((a i).reverse)).1]
        exact hE.2.2.1
      · show ((((clean_map a pats t).arena) i).mapto.rev,
          some (((clean_map a pats t).arena) i).reverse) ∈ (clean_map a pats t).table
        rw [harena, (hskel i).1, (hskel i).2.1]
        rw [clean_map_eq]
        apply pass2_mem_keep _ _ _ _ _ _ hE.2.2.2.1
        intro i' hi'
        have hck1 : ((pass1 a t).1 (((pass1 a t).1 i').reverse)).mapto.rev
            = (a ((a i').reverse)).mapto.rev := by
          rw [(hskel i').2.1, (hskel ((a i').reverse)).1]
        have hck2 : ((pass1 a t).1 i').mapto.rev = (a i').mapto.rev := by
          rw [(hskel i').1]
        rw [hck1, hck2]
        obtain ⟨k', hk'mem⟩ := pass1_tf_sub a t i' hi'
        have hE' := WF_entry a pats t hwf k' i' hk'mem
        constructor
        · intro hc
          have hm1 : ((a ((a i').reverse)).mapto.rev, some i') ∈ t := by
            rw [← hE'.2.2.1]
            exact hk'mem
          have hmp : ((a ((a i').reverse)).mapto.rev, some ((a i).reverse)) ∈ t := by
            rw [← hc]
            exact hE.2.2.2.1
          have hrv : (a i).reverse = i' :=
            Option.some.inj (mem_unique_of_keys_nodup t _ _ _ hmp hm1 hwf.1)
          apply (hkeys_ne i' hi').2
          rw [← hrv]
          exact hE.2.2.1
        · intro hc
          have hmp : ((a i').mapto.rev, some ((a i).reverse)) ∈ t := by
            rw [← hc]
            exact hE.2.2.2.1
          have hrv : (a i).reverse = (a i').reverse :=
            Option.some.inj (mem_unique_of_keys_nodup t _ _ _ hmp hE'.2.2.2.1 hwf.1)
          have hii' : i' = i := by
            have g1 := hE.1
            rw [hrv] at g1
            rw [hE'.1] at g1
            exact g1
          apply (hkeys_ne i' hi').1
          rw [hii']
          exact hE.2.2.1
      · rw [harena, (hskel i).2.2.2]
        have h5 := hE.2.2.2.2
        cases hp : (a i).pat with
        | none => trivial
        | some p =>
          rw [hp] at h5
          show ((clean_map a pats t).pats p).Nodup
          rw [clean_map_eq]
          exact pass2_pats_nodup _ _ _ _ _ h5

/-- After one `clean_map` pass every surviving live entry has its `used`
flag cleared. -/
theorem clean_map_all_unused (a : Nat → Mapping) (pats : Nat → List Nat) (t : Table)
    (hwf : WF a pats t) :
    ∀ k i, (k, some i) ∈ (clean_map a pats t).table →
      ((clean_map a pats t).arena i).used = false := by
  intro k i hm2
  obtain ⟨hmem_t, hkeys_ne⟩ := survivor_not_scheduled a pats t hwf k i hm2
  have hE := WF_entry a pats t hwf k i hmem_t
  have hnotf : i ∉ (pass1 a t).2 := by
    intro hc
    exact (hkeys_ne i hc).1 hE.2.2.1
  rw [clean_map_eq, pass2_arena]
  exact pass1_cleared a t k i hmem_t hnotf

/-- A `clean_map` pass over a well-formed table whose `used` flags are all
clear empties the table: every remaining entry is an explicit null. -/
theorem clean_map_empty_of_unused (a : Nat → Mapping) (pats : Nat → List Nat) (t : Table)
    (hwf : WF a pats t)
    (hun : ∀ k i, (k, some i) ∈ t → (a i).used = false) :
    ∀ e ∈ (clean_map a pats t).table, e.2 = none := by
  intro e hm2
  obtain ⟨k, v⟩ := e
  match v with
  | none => rfl
  | some i =>
    exfalso
    obtain ⟨hmem_t, hkeys_ne⟩ := survivor_not_scheduled a pats t hwf k i hm2
    have hE := WF_entry a pats t hwf k i hmem_t
    cases hrev : (a i).is_reverse
    · have hru : (a ((a i).reverse)).used = false := hun _ _ hE.2.2.2.1
      have htf : i ∈ (pass1 a t).2 :=
        pass1_sched_complete a t k i hmem_t (hun _ _ hmem_t) hru hrev
      exact (hkeys_ne i htf).1 hE.2.2.1
    · have hpmem := hE.2.2.2.1
      have hjf : (a ((a i).reverse)).is_reverse = false := by
        rw [hE.2.1, hrev]
        rfl
      have hju : (a ((a i).reverse)).used = false := hun _ _ hpmem
      have hjru : (a ((a ((a i).reverse)).reverse)).used = false := by
        rw [hE.1]
        exact hun _ _ hmem_t
      have htf : (a i).reverse ∈ (pass1 a t).2 :=
        pass1_sched_complete a t _ _ hpmem hju hjru hjf
      exact (hkeys_ne _ htf).2 hE.2.2.1

theorem tfind_none_of_all_none (t : Table) (h : ∀ e ∈ t, e.2 = none) (k : IPFlowID) :
    tfind t k = none := by
  induction t with
  | nil => rfl
  | cons e rest ih =>
    obtain ⟨k0, v0⟩ := e
    show (if k0 = k then v0 else tfind rest k) = none
    split_ifs with hk
    · exact h (k0, v0) (List.mem_cons_self _ _)
    · exact ih (fun e he => h e (List.mem_cons_of_mem _ he))

/-- Claim C7 counterexample: a reachable table state — produced by
installing a pair whose two keys coincide, so the reverse entry overwrites
the forward — on which two GC ticks with no traffic do *not* empty the
table: the lone reverse entry is never scheduled and survives forever. -/
theorem two_ticks_not_empty_cex :
    tfind (clean_map
      (clean_map
        (fun j => if j = 0
          then ⟨⟨⟨7, 8⟩, ⟨3, 4⟩, 9, 6⟩, 0, false, false, 1, none, 0, 0⟩
          else ⟨⟨⟨3, 4⟩, ⟨1, 2⟩, 6, 5⟩, 0, false, true, 0, none, 0, 0⟩)
        (fun _ => [])
        [(⟨⟨1, 2⟩, ⟨3, 4⟩, 5, 6⟩, some 1)]).arena
      (clean_map
        (fun j => if j = 0
          then ⟨⟨⟨7, 8⟩, ⟨3, 4⟩, 9, 6⟩, 0, false, false, 1, none, 0, 0⟩
          else ⟨⟨⟨3, 4⟩, ⟨1, 2⟩, 6, 5⟩, 0, false, true, 0, none, 0, 0⟩)
        (fun _ => [])
        [(⟨⟨1, 2⟩, ⟨3, 4⟩, 5, 6⟩, some 1)]).pats
      (clean_map
        (fun j => if j = 0
          then ⟨⟨⟨7, 8⟩, ⟨3, 4⟩, 9, 6⟩, 0, false, false, 1, none, 0, 0⟩
          else ⟨⟨⟨3, 4⟩, ⟨1, 2⟩, 6, 5⟩, 0, false, true, 0, none, 0, 0⟩)
        (fun _ => [])
        [(⟨⟨1, 2⟩, ⟨3, 4⟩, 5, 6⟩, some 1)]).table).table
      ⟨⟨1, 2⟩, ⟨3, 4⟩, 5, 6⟩ = some 1 := by
  decide

/-- Claim C7 (amended): over a table satisfying the linked-pair invariant
(every live entry's partner installed under the paired key), two GC ticks
with no intervening traffic leave the table observationally empty: the
first tick clears every surviving `used` flag, the second collects every
remaining pair, and every lookup then returns null.  The restriction to
well-formed tables is forced: a lone reverse entry (reachable when a
pair's two keys coincide and the reverse insert overwrites the forward) is
never scheduled and survives arbitrarily many ticks. -/
theorem two_ticks_empty (a : Nat → Mapping) (pats : Nat → List Nat) (t : Table)
    (hwf : WF a pats t) :
    (∀ e ∈ (clean_map (clean_map a pats t).arena (clean_map a pats t).pats
        (clean_map a pats t).table).table, e.2 = none) ∧
    ∀ k, tfind (clean_map (clean_map a pats t).arena (clean_map a pats t).pats
        (clean_map a pats t).table).table k = none := by
  have hwf1 := clean_map_WF a pats t hwf
  have hun := clean_map_all_unused a pats t hwf
  have hall := clean_map_empty_of_unused _ _ _ hwf1 hun
  exact ⟨hall, fun k => tfind_none_of_all_none _ hall k⟩

/-- Witness for the amended C7 theorem at a concrete well-formed one-pair
table. -/
theorem two_ticks_empty_witness :
    tfind (clean_map
      (clean_map
        (fun j => if j = 0
          then ⟨⟨⟨7, 8⟩, ⟨3, 4⟩, 9, 6⟩, 0, true, false, 1, none, 0, 0⟩
          else ⟨⟨⟨3, 4⟩, ⟨1, 2⟩, 6, 5⟩, 0, false, true, 0, none, 0, 0⟩)
        (fun _ => [])
        [(⟨⟨1, 2⟩, ⟨3, 4⟩, 5, 6⟩, some 0), (⟨⟨3, 4⟩, ⟨7, 8⟩, 6, 9⟩, some 1)]).arena
      (clean_map
        (fun j => if j = 0
          then ⟨⟨⟨7, 8⟩, ⟨3, 4⟩, 9, 6⟩, 0, true, false, 1, none, 0, 0⟩
          else ⟨⟨⟨3, 4⟩, ⟨1, 2⟩, 6, 5⟩, 0, false, true, 0, none, 0, 0⟩)
        (fun _ => [])
        [(⟨⟨1, 2⟩, ⟨3, 4⟩, 5, 6⟩, some 0), (⟨⟨3, 4⟩, ⟨7, 8⟩, 6, 9⟩, some 1)]).pats
      (clean_map
        (fun j => if j = 0
          then ⟨⟨⟨7, 8⟩, ⟨3, 4⟩, 9, 6⟩, 0, true, false, 1, none, 0, 0⟩
          else ⟨⟨⟨3, 4⟩, ⟨1, 2⟩, 6, 5⟩, 0, false, true, 0, none, 0, 0⟩)
        (fun _ => [])
        [(⟨⟨1, 2⟩, ⟨3, 4⟩, 5, 6⟩, some 0), (⟨⟨3, 4⟩, ⟨7, 8⟩, 6, 9⟩, some 1)]).table).table
      ⟨⟨1, 2⟩, ⟨3, 4⟩, 5, 6⟩ = none :=
  (two_ticks_empty
    (fun j => if j = 0
      then ⟨⟨⟨7, 8⟩, ⟨3, 4⟩, 9, 6⟩, 0, true, false, 1, none, 0, 0⟩
      else ⟨⟨⟨3, 4⟩, ⟨1, 2⟩, 6, 5⟩, 0, false, true, 0, none, 0, 0⟩)
    (fun _ => [])
    [(⟨⟨1, 2⟩, ⟨3, 4⟩, 5, 6⟩, some 0), (⟨⟨3, 4⟩, ⟨7, 8⟩, 6, 9⟩, some 1)]
    (by decide)).2 ⟨⟨1, 2⟩, ⟨3, 4⟩, 5, 6⟩

end IPRewriter
